import Mathlib

/-!
Verification of the seastar fair-queue I/O scheduler, a shallow embedding of
src/core/fair_queue.cc.  Machine integers are modelled as Nat reduced modulo
2^32 (ticket components, C++ uint32_t) or modulo 2^64 (capacity values,
C++ uint64_t = fair_group::capacity_t); signed 64-bit views are Int obtained by
two's-complement reinterpretation.  Floating-point quantities that the code
only compares or truncates (fixed_point_factor products, rate casts) are
modelled as exact rationals.  The shared token bucket
(seastar/util/shared_token_bucket.hh) is not part of the sources; the few
operations the fair queue needs from it are modelled from the specification
and are marked as such in their doc comments.
-/

namespace FairQueueModel

/-- Modulus of the 32-bit unsigned ticket components. -/
def u32Mod : Nat := 2 ^ 32

/-- Modulus of 64-bit unsigned capacity values (fair_group::capacity_t). -/
def u64Mod : Nat := 2 ^ 64

/-- Largest value of the signed 64-bit capacity type
(std::numeric_limits of signed_capacity_t, max()). -/
def i64Max : Nat := 2 ^ 63 - 1

/-- Reinterpretation of a uint32 value as a two's-complement int32. -/
def toInt32 (n : Nat) : Int :=
  if n % u32Mod < 2 ^ 31 then (n % u32Mod : Int) else (n % u32Mod : Int) - (u32Mod : Int)

/-- Reinterpretation of a uint64 value as a two's-complement int64. -/
def toInt64 (n : Nat) : Int :=
  if n % u64Mod < 2 ^ 63 then (n % u64Mod : Int) else (n % u64Mod : Int) - (u64Mod : Int)

/-- Conversion of a signed 64-bit value back to the unsigned uint64 bit pattern. -/
def ofInt64 (z : Int) : Nat := (z % (u64Mod : Int)).toNat

/-- Wrapping uint32 addition. -/
def add32 (a b : Nat) : Nat := (a + b) % u32Mod

/-- Wrapping uint32 subtraction (two's complement). -/
def sub32 (a b : Nat) : Nat := (a % u32Mod + (u32Mod - b % u32Mod)) % u32Mod

/-- Wrapping uint64 addition. -/
def add64 (a b : Nat) : Nat := (a + b) % u64Mod

/-- Wrapping uint64 subtraction (two's complement). -/
def sub64 (a b : Nat) : Nat := (a % u64Mod + (u64Mod - b % u64Mod)) % u64Mod

/-- Shallow embedding of seastar::fair_queue_ticket: a pair of uint32
components (weight, size).  Every operation keeps components reduced
modulo 2^32, mirroring the C++ uint32_t fields. -/
structure fair_queue_ticket where
  weight : Nat
  size : Nat
deriving DecidableEq, Repr

/-- The default-constructed (zero) ticket. -/
def zeroTicket : fair_queue_ticket := ⟨0, 0⟩

/-- fair_queue_ticket::operator+ : component-wise uint32 addition. -/
def tadd (a b : fair_queue_ticket) : fair_queue_ticket :=
  ⟨add32 a.weight b.weight, add32 a.size b.size⟩

/-- fair_queue_ticket::operator- and operator-= : component-wise uint32
subtraction, wrapping modulo 2^32 on underflow. -/
def tsub (a b : fair_queue_ticket) : fair_queue_ticket :=
  ⟨sub32 a.weight b.weight, sub32 a.size b.size⟩

/-- Source function wrapping_difference: on each component the uint32
difference is computed, reinterpreted as int32, clamped below by 0
(std::max against int32 zero), and the result converted back to uint32. -/
def wrapping_difference (a b : fair_queue_ticket) : fair_queue_ticket :=
  ⟨if 0 < toInt32 (sub32 a.weight b.weight) then sub32 a.weight b.weight else 0,
   if 0 < toInt32 (sub32 a.size b.size) then sub32 a.size b.size else 0⟩

/-- Modelled from the spec: the capacity gate state.  fair_group wraps a
shared token bucket (seastar/util/shared_token_bucket.hh, absent from the
sources) holding two wrapping uint64 rovers — tail counts tokens ever
reserved, head tokens ever made available — plus the configured replenish
rate, limit and threshold. -/
structure FairGroup where
  tail : Nat
  head : Nat
  limit : Nat
  rate : Nat
  threshold : Nat
deriving DecidableEq, Repr

/-- fair_group::grab_capacity: advance tail by cap and return the post-update
tail as the head target the reservation waits for. -/
def FairGroup.grab_capacity (g : FairGroup) (cap : Nat) : Nat × FairGroup :=
  (add64 g.tail cap, { g with tail := add64 g.tail cap })

/-- fair_group::release_capacity: advance head by cap. -/
def FairGroup.release_capacity (g : FairGroup) (cap : Nat) : FairGroup :=
  { g with head := add64 g.head cap }

/-- fair_group::capacity_deficiency(from): the signed-clamped wrap-aware
difference between a head target and the current head; zero means the
reservation is satisfied. -/
def FairGroup.capacity_deficiency (g : FairGroup) (v : Nat) : Nat :=
  if 0 < toInt64 (sub64 v g.head) then sub64 v g.head else 0

/-- Modelled from the spec: fair_group::maybe_replenish_capacity.  The tokens
earned from the wall clock since the last replenish are given by the oracle
argument extra; when they reach the threshold, head advances by them but not
past tail + limit. -/
def FairGroup.maybe_replenish (g : FairGroup) (extra : Nat) : FairGroup :=
  if g.threshold ≤ extra then
    { g with head := add64 g.head (min extra (g.capacity_deficiency (add64 g.tail g.limit))) }
  else g

/-- A queued request: its cost ticket plus an opaque payload identifier used
only to track dispatch order. -/
structure fair_queue_entry where
  ticket : fair_queue_ticket
  payload : Nat
deriving DecidableEq, Repr

/-- fair_queue::priority_class_data: shares (clamped to at least 1),
the share-scaled accumulator, the raw capacity accumulator, the intrusive
FIFO of entries, and the queued (in heap) / plugged flags. -/
structure priority_class_data where
  shares : Nat
  accumulated : Nat
  pure_accumulated : Nat
  fifo : List fair_queue_entry
  queued : Bool
  plugged : Bool
deriving DecidableEq, Repr

/-- priority_class_data constructor: shares are stored as max(shares, 1). -/
def priority_class_data.make (shares : Nat) : priority_class_data :=
  ⟨max shares 1, 0, 0, [], false, true⟩

/-- priority_class_data::update_shares: stores max(shares, 1). -/
def priority_class_data.update_shares (pc : priority_class_data) (shares : Nat) :
    priority_class_data :=
  { pc with shares := max shares 1 }

/-- fair_queue::pending: a reservation whose head target is not yet crossed;
cap tokens are already charged against the group. -/
structure Pending where
  head : Nat
  cap : Nat
deriving DecidableEq, Repr

/-- Ambient constants of one fair queue: capFn is fair_group::ticket_capacity
(a float cost projection, abstracted to a function since the claims treat its
values symbolically), budget is maximum_capacity() / smp::count, tauTicks is
rate_cast(config.tau).count() as an exact rational. -/
structure FQContext where
  capFn : fair_queue_ticket → Nat
  budget : Nat
  tauTicks : ℚ

/-- Fixed-point factor of the capacity arithmetic, float(1 shl 24) in the
header accompanying the source, exactly representable. -/
def fixed_point_factor : ℚ := 2 ^ 24

/-- Idle-class handicap computed by push_priority_class_from_idle:
fixed_point_factor / shares * tau ticks, computed in floating point by the
source and truncated to capacity_t; modelled as the exact rational truncated
toward zero. -/
def maxDeviation (ctx : FQContext) (shares : Nat) : Nat :=
  Int.toNat (Int.floor (fixed_point_factor / (shares : ℚ) * ctx.tauTicks))

/-- Shard-local fair_queue state.  The priority-class table is indexed by
class id; the heap is represented by the queued flags (see heapTop).  The
shared group is folded into the state since the claims concern a single
shard. -/
structure FairQueue where
  classes : List (Option priority_class_data)
  resources_executing : fair_queue_ticket
  resources_queued : fair_queue_ticket
  requests_executing : Nat
  requests_queued : Nat
  last_accumulated : Nat
  pending : Option Pending
  group : FairGroup
deriving DecidableEq, Repr

/-- Lookup of a priority class by id (none when unregistered or out of
range). -/
def getClass (s : FairQueue) (i : Nat) : Option priority_class_data :=
  s.classes.getD i none

/-- Replacement of the priority class stored at id i. -/
def setClass (s : FairQueue) (i : Nat) (pc : priority_class_data) : FairQueue :=
  { s with classes := s.classes.set i (some pc) }

/-- Whether class i currently sits in the heap. -/
def isQueued (s : FairQueue) (i : Nat) : Bool :=
  match getClass s i with
  | some pc => pc.queued
  | none => false

/-- The accumulated field of class i (0 when unregistered). -/
def accOf (s : FairQueue) (i : Nat) : Nat :=
  match getClass s i with
  | some pc => pc.accumulated
  | none => 0

/-- Head of the priority-class heap.  The C++ _handles is a binary heap whose
comparator orders by accumulated descending, so top() is a class of minimal
accumulated among the queued ones, ties arbitrary.  Every mutation of
accumulated in the source happens either while the class is out of the heap
or (renormalization) shifts all queued classes uniformly, so heap membership
is exactly the queued flag and the top is modelled as the first queued index
of minimal accumulated. -/
def heapTop (s : FairQueue) : Option Nat :=
  ((List.range s.classes.length).filter (fun i => isQueued s i)).argmin (fun i => accOf s i)

/-- fair_queue::push_priority_class: mark the class as being in the heap. -/
def pushClass (s : FairQueue) (i : Nat) : FairQueue :=
  match getClass s i with
  | some pc => setClass s i { pc with queued := true }
  | none => s

/-- fair_queue::push_priority_class_from_idle acting on the class record:
when the class is not in the heap, lift its accumulated to
max(last_accumulated - max_deviation, accumulated) in signed 64-bit
arithmetic (the subtraction wraps in uint64 first, as in the source) and mark
it queued. -/
def pushFromIdlePC (ctx : FQContext) (last : Nat) (pc : priority_class_data) :
    priority_class_data :=
  if pc.queued then pc
  else
    { pc with
      accumulated :=
        ofInt64 (max (toInt64 (sub64 last (maxDeviation ctx pc.shares)))
                     (toInt64 pc.accumulated)),
      queued := true }

/-- fair_queue::register_priority_class: grow the table as needed and install
a fresh class with shares clamped to at least 1. -/
def register_priority_class (s : FairQueue) (i : Nat) (shares : Nat) : FairQueue :=
  let cs := if s.classes.length ≤ i
    then s.classes ++ List.replicate (i + 1 - s.classes.length) none
    else s.classes
  { s with classes := cs.set i (some (priority_class_data.make shares)) }

/-- fair_queue::unregister_priority_class: drop the class (its FIFO must be
empty, asserted in the source). -/
def unregister_priority_class (s : FairQueue) (i : Nat) : FairQueue :=
  { s with classes := s.classes.set i none }

/-- fair_queue::update_shares_for_class. -/
def update_shares_for_class (s : FairQueue) (i : Nat) (shares : Nat) : FairQueue :=
  match getClass s i with
  | none => s
  | some pc => setClass s i (pc.update_shares shares)

/-- fair_queue::queue(class_id, entry): push the class from idle when it is
plugged, append the entry to its FIFO, account the queued resources. -/
def fq_queue (ctx : FQContext) (s : FairQueue) (i : Nat) (ent : fair_queue_entry) :
    FairQueue :=
  match getClass s i with
  | none => s
  | some pc =>
    let pc1 := if pc.plugged then pushFromIdlePC ctx s.last_accumulated pc else pc
    let s1 : FairQueue :=
      { s with resources_queued := tadd s.resources_queued ent.ticket,
               requests_queued := s.requests_queued + 1 }
    setClass s1 i { pc1 with fifo := pc1.fifo ++ [ent] }

/-- fair_queue::plug_class: mark plugged and re-admit via push-from-idle when
the FIFO is non-empty. -/
def plug_class (ctx : FQContext) (s : FairQueue) (i : Nat) : FairQueue :=
  match getClass s i with
  | none => s
  | some pc =>
    let pc1 := { pc with plugged := true }
    setClass s i (if pc1.fifo ≠ [] then pushFromIdlePC ctx s.last_accumulated pc1 else pc1)

/-- fair_queue::unplug_class: pop from the heap when queued, clear plugged. -/
def unplug_class (s : FairQueue) (i : Nat) : FairQueue :=
  match getClass s i with
  | none => s
  | some pc => setClass s i { pc with queued := false, plugged := false }

/-- fair_queue::notify_request_cancelled on the entry at position idx of class
i's FIFO: subtract its ticket from resources_queued and zero the ticket,
leaving the entry in place. -/
def notify_request_cancelled (s : FairQueue) (i idx : Nat) : FairQueue :=
  match getClass s i with
  | none => s
  | some pc =>
    match pc.fifo.get? idx with
    | none => s
    | some ent =>
      let s1 : FairQueue := { s with resources_queued := tsub s.resources_queued ent.ticket }
      setClass s1 i { pc with fifo := pc.fifo.set idx { ent with ticket := zeroTicket } }

/-- fair_queue::notify_request_finished. -/
def notify_request_finished (ctx : FQContext) (s : FairQueue) (desc : fair_queue_ticket) :
    FairQueue :=
  { s with resources_executing := tsub s.resources_executing desc,
           requests_executing := s.requests_executing - 1,
           group := s.group.release_capacity (ctx.capFn desc) }

/-- Result of fair_queue::grab_capacity. -/
inductive grab_result
  | grabbed
  | pending
  | cant_preempt
deriving DecidableEq, Repr

/-- fair_queue::grab_pending_capacity: replenish lazily (extra is the
wall-clock oracle), stay pending while the head target has a deficiency,
refuse to shrink the reservation for a larger request, otherwise release the
excess and clear the pending record. -/
def grab_pending_capacity (extra : Nat) (g : FairGroup) (p : Pending) (cap : Nat) :
    grab_result × FairGroup × Option Pending :=
  let g1 := g.maybe_replenish extra
  if g1.capacity_deficiency p.head ≠ 0 then (.pending, g1, some p)
  else if p.cap < cap then (.cant_preempt, g1, some p)
  else if cap < p.cap then (.grabbed, g1.release_capacity (p.cap - cap), none)
  else (.grabbed, g1, none)

/-- fair_queue::grab_capacity(ent): defer to the pending path when a pending
record exists, otherwise reserve from the group and record a pending wait on
deficiency. -/
def fq_grab_capacity (ctx : FQContext) (extra : Nat) (s : FairQueue)
    (ent : fair_queue_entry) : grab_result × FairGroup × Option Pending :=
  let cap := ctx.capFn ent.ticket
  match s.pending with
  | some p => grab_pending_capacity extra s.group p cap
  | none =>
    let r := s.group.grab_capacity cap
    if r.2.capacity_deficiency r.1 ≠ 0 then (.pending, r.2, some ⟨r.1, cap⟩)
    else (.grabbed, r.2, none)

/-- Per-class effect of the overflow renormalization: queued classes have the
dispatching class's accumulated subtracted (uint64 subtraction, which cannot
underflow because the dispatching class was the heap minimum), non-queued
classes are zeroed. -/
def renormPC (hAcc : Nat) (pc : priority_class_data) : priority_class_data :=
  if pc.queued then { pc with accumulated := sub64 pc.accumulated hAcc }
  else { pc with accumulated := 0 }

/-- Overflow renormalization over the whole queue (dispatch_requests, source
lines 405-418): adjust every registered class and zero last_accumulated. -/
def renormalize (s : FairQueue) (hAcc : Nat) : FairQueue :=
  { s with classes := s.classes.map (fun o => o.map (renormPC hAcc)),
           last_accumulated := 0 }

/-- Outcome of one iteration of the dispatch loop. -/
inductive IterOut
  | halt
  | cleanup (i : Nat)
  | pend
  | cant (i : Nat)
  | grab (i : Nat) (e : fair_queue_entry) (cap : Nat)
deriving DecidableEq, Repr

/-- The grabbed branch of the dispatch loop body (source lines 390-431):
record last_accumulated from the pre-increment accumulated, pop the class and
its front entry, move the ticket from queued to executing, renormalize on
signed-64 overflow, add req_cost = max(req_cap / shares, 1) to accumulated
and req_cap to pure_accumulated, and re-queue the class when it is plugged
with a non-empty FIFO. -/
def grabSuccessor (ctx : FQContext) (s : FairQueue) (i : Nat) (pc : priority_class_data)
    (e : fair_queue_entry) (rest : List fair_queue_entry) (g1 : FairGroup)
    (p1 : Option Pending) : FairQueue :=
  let req_cap := ctx.capFn e.ticket
  let req_cost := max (req_cap / pc.shares) 1
  let s2 : FairQueue :=
    { s with group := g1, pending := p1,
             last_accumulated := max pc.accumulated s.last_accumulated,
             resources_executing := tadd s.resources_executing e.ticket,
             resources_queued := tsub s.resources_queued e.ticket,
             requests_executing := s.requests_executing + 1,
             requests_queued := s.requests_queued - 1 }
  let pcPopped := { pc with queued := false, fifo := rest }
  let ovf := sub64 i64Max req_cost ≤ pc.accumulated
  let s4 := if ovf then renormalize (setClass s2 i pcPopped) pc.accumulated
            else setClass s2 i pcPopped
  let pcAfter := if ovf then renormPC pc.accumulated pcPopped else pcPopped
  let pcInc := { pcAfter with accumulated := add64 pcAfter.accumulated req_cost,
                              pure_accumulated := add64 pcAfter.pure_accumulated req_cap }
  let pcFin := if pcInc.plugged ∧ pcInc.fifo ≠ [] then { pcInc with queued := true } else pcInc
  setClass s4 i pcFin

/-- One iteration of the dispatch_requests while-loop (source lines 367-432):
stop on budget or empty heap, lazily drop empty classes, reserve capacity for
the front entry of the minimal-accumulated class, and on grab perform the
grabSuccessor bookkeeping. -/
def dispatchIter (ctx : FQContext) (extra : Nat) (s : FairQueue) (dispatched : Nat) :
    IterOut × FairQueue :=
  if ctx.budget ≤ dispatched then (.halt, s)
  else
    match heapTop s with
    | none => (.halt, s)
    | some i =>
      match getClass s i with
      | none => (.halt, s)
      | some pc =>
        match pc.fifo with
        | [] => (.cleanup i, setClass s i { pc with queued := false })
        | req :: rest =>
          match fq_grab_capacity ctx extra s req with
          | (.pending, g1, p1) => (.pend, { s with group := g1, pending := p1 })
          | (.cant_preempt, g1, p1) =>
            (.cant i, setClass { s with group := g1, pending := p1 } i { pc with queued := false })
          | (.grabbed, g1, p1) =>
            (.grab i req (ctx.capFn req.ticket), grabSuccessor ctx s i pc req rest g1 p1)

/-- The dispatch_requests while-loop; fuel bounds the number of iterations
(the C++ loop terminates because every non-breaking iteration removes a heap
handle or a queued entry), repl is the per-iteration replenish oracle indexed
by the iteration counter k.  Returns the state at loop exit, the entries
passed to cb in order, and the preempt list of class ids in push-back
order. -/
def dispatchLoop (ctx : FQContext) (repl : Nat → Nat) :
    Nat → Nat → Nat → FairQueue → FairQueue × List fair_queue_entry × List Nat
  | 0, _, _, s => (s, [], [])
  | Nat.succ fuel, k, dispatched, s =>
    match dispatchIter ctx (repl k) s dispatched with
    | (.halt, s1) => (s1, [], [])
    | (.pend, s1) => (s1, [], [])
    | (.cleanup _, s1) => dispatchLoop ctx repl fuel (k + 1) dispatched s1
    | (.cant i, s1) =>
      let r := dispatchLoop ctx repl fuel (k + 1) dispatched s1
      (r.1, r.2.1, i :: r.2.2)
    | (.grab _ e cap, s1) =>
      let r := dispatchLoop ctx repl fuel (k + 1) (add64 dispatched cap) s1
      (r.1, e :: r.2.1, r.2.2)

/-- fair_queue::dispatch_requests: run the loop, then push every preempted
class back onto the heap. -/
def dispatch_requests (ctx : FQContext) (repl : Nat → Nat) (fuel : Nat) (s : FairQueue) :
    FairQueue × List fair_queue_entry :=
  let r := dispatchLoop ctx repl fuel 0 0 s
  (r.2.2.foldl (fun t i => pushClass t i) r.1, r.2.1)

/-- The two exceptions fair_group::fair_group can throw. -/
inductive FairGroupError
  | rate_factor_too_large
  | replenisher_below_threshold
deriving DecidableEq, Repr

/-- Conversion of a nonnegative float (modelled as a rational) to
capacity_t, truncating toward zero. -/
def ratToCapacity (q : ℚ) : Nat := (Int.floor q).toNat

/-- Modelled from the spec: the token bucket the constructor builds (its
header, seastar/util/shared_token_bucket.hh, is not among the sources), from
rate = rate_factor * fixed_point_factor, limit = rate * rate-limit-duration
ticks and the requested replenish threshold = ticket_capacity(min_weight,
min_size).  rateFactor and limitTicks are the float configuration values as
exact rationals; capMin is the capacity of the minimal ticket.  The stored
threshold is the requested minimum replenishment grain clamped to at least
one token and at most the bucket limit: replenishment only moves head when
the earned tokens reach the threshold and never past tail + limit, so a
grain above the limit could never be reached; this clamp is what lets the
constructor's threshold check fail when the minimal ticket capacity exceeds
the replenisher limit (the wording of the thrown error). -/
def fair_group_bucket (rateFactor limitTicks : ℚ) (capMin : Nat) : FairGroup :=
  { tail := 0, head := 0,
    limit := ratToCapacity (rateFactor * fixed_point_factor * limitTicks),
    rate := ratToCapacity (rateFactor * fixed_point_factor),
    threshold := min (max capMin 1)
      (ratToCapacity (rateFactor * fixed_point_factor * limitTicks)) }

/-- fair_group::fair_group (source lines 94-112): throw when the configured
rate exceeds the bucket's max_rate or when the minimal ticket capacity
exceeds the constructed bucket's replenish threshold, otherwise return the
group.  maxRate is the bucket's largest representable rate. -/
def fair_group_make (maxRate : Nat) (rateFactor limitTicks : ℚ) (capMin : Nat) :
    Except FairGroupError FairGroup :=
  let g := fair_group_bucket rateFactor limitTicks capMin
  if (maxRate : ℚ) < rateFactor * fixed_point_factor then .error .rate_factor_too_large
  else if g.threshold < capMin then .error .replenisher_below_threshold
  else .ok g

/-- The pure_accumulated field of class i (0 when unregistered). -/
def pureOf (s : FairQueue) (i : Nat) : Nat :=
  match getClass s i with
  | some pc => pc.pure_accumulated
  | none => 0

/-- The FIFO of class i ([] when unregistered). -/
def fifoOf (s : FairQueue) (i : Nat) : List fair_queue_entry :=
  match getClass s i with
  | some pc => pc.fifo
  | none => []

/-- Boolean check that a table slot carries positive shares. -/
def sharesOkB (o : Option priority_class_data) : Bool :=
  match o with
  | none => true
  | some pc => 1 ≤ pc.shares

/-- Invariant: every registered class has shares at least 1. -/
def SharesInv (s : FairQueue) : Prop := s.classes.all sharesOkB = true

/-- Example context used by the concrete witnesses: every ticket costs 5
tokens, budget 100, tau of 5 rate ticks. -/
def ctxA : FQContext := ⟨fun _ => 5, 100, 5⟩

/-- Example entry of weight 1 and size 2. -/
def entA : fair_queue_entry := ⟨⟨1, 2⟩, 0⟩

/-- Example single queued plugged class holding entA. -/
def pcA : priority_class_data := ⟨1, 0, 0, [entA], true, true⟩

/-- Example group with ample replenished capacity. -/
def gA : FairGroup := ⟨0, 1000, 1000, 1, 1⟩

/-- Example single-class queue state with one queued request. -/
def sA : FairQueue := ⟨[some pcA], ⟨0, 0⟩, ⟨1, 2⟩, 0, 1, 0, none, gA⟩

/-- Example context with zero tau (so the idle handicap is exactly zero). -/
def ctxB : FQContext := ⟨fun _ => 5, 100, 0⟩

/-- Example idle plugged class with accumulated 3. -/
def pcB : priority_class_data := ⟨1, 3, 0, [], false, true⟩

/-- Example state whose last_accumulated is ahead of the idle class. -/
def sB : FairQueue := ⟨[some pcB], ⟨0, 0⟩, ⟨0, 0⟩, 0, 0, 10, none, gA⟩

/-- Example context whose cost projection sends the zero ticket to zero. -/
def ctxZ : FQContext := ⟨fun t => t.weight + t.size, 100, 5⟩

/-- Example cancelled entry: its ticket is already the zero ticket. -/
def entZ : fair_queue_entry := ⟨⟨0, 0⟩, 7⟩

/-- Example queued class holding only the cancelled entry. -/
def pcZ : priority_class_data := ⟨1, 0, 0, [entZ], true, true⟩

/-- Example state about to dispatch the cancelled entry. -/
def sZ : FairQueue := ⟨[some pcZ], ⟨0, 0⟩, ⟨0, 0⟩, 0, 1, 0, none, gA⟩

/-- Example entry for the class about to overflow. -/
def entC : fair_queue_entry := ⟨⟨1, 1⟩, 1⟩

/-- Example entry for the bystander queued class. -/
def entD : fair_queue_entry := ⟨⟨2, 2⟩, 2⟩

/-- Example class whose accumulated is within req_cost of the signed cap. -/
def pcC : priority_class_data := ⟨1, i64Max - 3, 0, [entC], true, true⟩

/-- Example bystander queued class slightly above pcC. -/
def pcD : priority_class_data := ⟨1, i64Max - 2, 0, [entD], true, true⟩

/-- Example two-class state that triggers overflow renormalization. -/
def sC : FairQueue := ⟨[some pcC, some pcD], ⟨0, 0⟩, ⟨3, 3⟩, 0, 2, 0, none, gA⟩

/-- Example group with an outstanding reservation of 7 tokens. -/
def gP : FairGroup := ⟨7, 1000, 1000, 1, 5⟩

/-- Example satisfied pending record reserving 7 tokens. -/
def pP : Pending := ⟨600, 7⟩

/-- Example state whose pending reservation is larger than the next entry. -/
def sP : FairQueue := ⟨[some pcA], ⟨0, 0⟩, ⟨1, 2⟩, 0, 1, 0, some pP, gP⟩

/-- Example pending record smaller than the next entry (preemption case). -/
def pQ : Pending := ⟨600, 3⟩

/-- Example state whose head entry cannot preempt the pending reservation. -/
def sQ : FairQueue := ⟨[some pcA], ⟨0, 0⟩, ⟨1, 2⟩, 0, 1, 0, some pQ, gP⟩

theorem sub32_cases {a b : Nat} (ha : a < u32Mod) (hb : b < u32Mod) :
    (b ≤ a → sub32 a b = a - b) ∧ (a < b → sub32 a b = u32Mod - (b - a)) := by
  simp only [sub32, u32Mod] at *
  constructor <;> intro h <;> omega

theorem wrapdiff_comp {a b : Nat} (ha : a < u32Mod) (hb : b < u32Mod)
    (h1 : -(2 ^ 31 : ℤ) ≤ (a : ℤ) - b) (h2 : (a : ℤ) - b < 2 ^ 31) :
    (if 0 < toInt32 (sub32 a b) then sub32 a b else 0) = a - b := by
  simp only [sub32, toInt32, u32Mod] at *
  split_ifs <;> omega

/-- C7, corrected claim.  For tickets whose component-wise true differences
lie in the int32 range, wrapping_difference is the component-wise
max(a - b, 0) (Nat truncated subtraction); outside that range the int32
reinterpretation flips the sign and the claimed equality fails (see the
counterexample). -/
theorem c7_wrapping_difference_saturates (a b : fair_queue_ticket)
    (haw : a.weight < u32Mod) (hbw : b.weight < u32Mod)
    (has : a.size < u32Mod) (hbs : b.size < u32Mod)
    (h1 : -(2 ^ 31 : ℤ) ≤ (a.weight : ℤ) - b.weight)
    (h2 : (a.weight : ℤ) - b.weight < 2 ^ 31)
    (h3 : -(2 ^ 31 : ℤ) ≤ (a.size : ℤ) - b.size)
    (h4 : (a.size : ℤ) - b.size < 2 ^ 31) :
    wrapping_difference a b = ⟨a.weight - b.weight, a.size - b.size⟩ := by
  unfold wrapping_difference
  rw [wrapdiff_comp haw hbw h1 h2, wrapdiff_comp has hbs h3 h4]

/-- C7 counterexample.  At a = (2^31, 0), b = (0, 0) the true difference of
the weight components is 2^31 ≥ 0, yet wrapping_difference returns 0 on that
component (the uint32 difference 2^31 reinterprets as a negative int32), so
the claimed equality with max(a - b, 0) fails for these uint32 values. -/
theorem c7_counterexample :
    (⟨0, 0⟩ : fair_queue_ticket).weight ≤ (⟨2 ^ 31, 0⟩ : fair_queue_ticket).weight ∧
    (⟨2 ^ 31, 0⟩ : fair_queue_ticket).weight - (⟨0, 0⟩ : fair_queue_ticket).weight = 2 ^ 31 ∧
    (wrapping_difference ⟨2 ^ 31, 0⟩ ⟨0, 0⟩).weight = 0 ∧
    (wrapping_difference ⟨2 ^ 31, 0⟩ ⟨0, 0⟩).weight ≠
      (⟨2 ^ 31, 0⟩ : fair_queue_ticket).weight - (⟨0, 0⟩ : fair_queue_ticket).weight := by
  refine ⟨by decide, by decide, by decide, by decide⟩

/-- C7 witness: a concrete application of the corrected statement, one
component above and one below. -/
theorem c7_witness :
    wrapping_difference ⟨7, 5⟩ ⟨3, 9⟩ = ⟨7 - 3, 5 - 9⟩ :=
  c7_wrapping_difference_saturates ⟨7, 5⟩ ⟨3, 9⟩ (by decide) (by decide) (by decide)
    (by decide) (by decide) (by decide) (by decide) (by decide)

/-- C10.  fair_queue_ticket subtraction wraps modulo 2^32 on underflow: there
are tickets a and b with a component of b larger than the matching component
of a where (a - b) carries a.c - b.c + 2^32, while wrapping_difference
saturates to 0 on that component. -/
theorem c10_operator_sub_wraps :
    ∃ a b : fair_queue_ticket, a.weight < b.weight ∧
      (tsub a b).weight = a.weight + u32Mod - b.weight ∧
      (wrapping_difference a b).weight = 0 :=
  ⟨⟨0, 0⟩, ⟨1, 0⟩, by decide, by decide, by decide⟩

/-- C8.  fair_group construction fails (throws) exactly when the configured
rate exceeds the bucket's maximum representable rate or the minimal ticket
capacity exceeds the bucket's replenish threshold; every other configuration
constructs successfully.  Neither failure path is dead code: both error
outcomes and the success outcome are reachable by concrete configurations
(the threshold failure at a minimal ticket whose capacity exceeds the
replenisher limit, so that the clamped threshold falls below it). -/
theorem c8_fair_group_construction :
    (∀ (maxRate : Nat) (rateFactor limitTicks : ℚ) (capMin : Nat),
      (∃ err, fair_group_make maxRate rateFactor limitTicks capMin = .error err) ↔
        ((maxRate : ℚ) < rateFactor * fixed_point_factor ∨
          (fair_group_bucket rateFactor limitTicks capMin).threshold < capMin)) ∧
    (∃ mr rf lt cm, fair_group_make mr rf lt cm =
        .error FairGroupError.rate_factor_too_large) ∧
    (∃ mr rf lt cm, fair_group_make mr rf lt cm =
        .error FairGroupError.replenisher_below_threshold) ∧
    (∃ mr rf lt cm g, fair_group_make mr rf lt cm = .ok g) := by
  refine ⟨?iff, ?rerr, ?terr, ?ok⟩
  case iff =>
    intro maxRate rateFactor limitTicks capMin
    by_cases h1 : (maxRate : ℚ) < rateFactor * fixed_point_factor
    · simp [fair_group_make, h1]
    · by_cases h2 : (fair_group_bucket rateFactor limitTicks capMin).threshold < capMin
      · simp [fair_group_make, h1, h2]
      · simp [fair_group_make, h1, h2]
  case rerr =>
    refine ⟨0, 1, 1, 0, ?e1⟩
    norm_num [fair_group_make, fixed_point_factor]
  case terr =>
    refine ⟨2 ^ 24, 1, 0, 5, ?e2⟩
    norm_num [fair_group_make, fair_group_bucket, ratToCapacity, fixed_point_factor]
  case ok =>
    refine ⟨2 ^ 24, 1, 1, 0, fair_group_bucket 1 1 0, ?e3⟩
    norm_num [fair_group_make, fixed_point_factor]

theorem toInt64_sub64 {a b : Nat} (ha : a < 2 ^ 63) (hb : b < 2 ^ 63) :
    toInt64 (sub64 a b) = (a : ℤ) - b := by
  simp only [sub64, toInt64, u64Mod] at *
  split_ifs <;> omega

theorem toInt64_of_lt {a : Nat} (ha : a < 2 ^ 63) : toInt64 a = a := by
  simp only [toInt64, u64Mod] at *
  split_ifs <;> omega

theorem ofInt64_toNat {z : ℤ} (h0 : 0 ≤ z) (h1 : z < 2 ^ 64) : ofInt64 z = z.toNat := by
  simp only [ofInt64, u64Mod] at *
  omega

theorem signedMax_eq {last dev acc : Nat} (h1 : last < 2 ^ 63) (h2 : dev < 2 ^ 63)
    (h3 : acc < 2 ^ 63) :
    ofInt64 (max (toInt64 (sub64 last dev)) (toInt64 acc)) =
      Int.toNat (max ((last : ℤ) - dev) (acc : ℤ)) := by
  rw [toInt64_sub64 h1 h2, toInt64_of_lt h3]
  refine ofInt64_toNat (le_trans (Int.ofNat_nonneg acc) (le_max_right _ _)) ?ub
  have hx : ((last : ℤ) - dev) < 2 ^ 64 := by omega
  have hy : ((acc : ℤ)) < 2 ^ 64 := by omega
  exact max_lt hx hy

theorem getClass_lt_length {s : FairQueue} {i : Nat} {pc : priority_class_data}
    (h : getClass s i = some pc) : i < s.classes.length := by
  unfold getClass at h
  by_contra hlt
  push_neg at hlt
  rw [List.getD_eq_getElem?_getD, List.getElem?_eq_none hlt] at h
  simp at h

theorem getClass_setClass_self {s : FairQueue} {i : Nat} (pc : priority_class_data)
    (h : i < s.classes.length) : getClass (setClass s i pc) i = some pc := by
  unfold getClass setClass
  rw [List.getD_eq_getElem?_getD, List.getElem?_set_self (by simpa using h)]
  rfl

theorem getClass_setClass_ne {s : FairQueue} {i j : Nat} (pc : priority_class_data)
    (h : j ≠ i) : getClass (setClass s i pc) j = getClass s j := by
  unfold getClass setClass
  rw [List.getD_eq_getElem?_getD, List.getD_eq_getElem?_getD,
    List.getElem?_set_ne (by omega)]

theorem getClass_renormalize (s : FairQueue) (a : Nat) (j : Nat) :
    getClass (renormalize s a) j = Option.map (renormPC a) (getClass s j) := by
  unfold getClass renormalize
  rw [List.getD_eq_getElem?_getD, List.getD_eq_getElem?_getD, List.getElem?_map]
  cases s.classes[j]? with
  | none => rfl
  | some o => cases o <;> rfl

theorem heapTop_isQueued {s : FairQueue} {i : Nat} (h : heapTop s = some i) :
    isQueued s i = true ∧ i < s.classes.length := by
  unfold heapTop at h
  have hmem := List.argmin_mem h
  rw [List.mem_filter] at hmem
  exact ⟨hmem.2, List.mem_range.mp hmem.1⟩

theorem heapTop_min {s : FairQueue} {i j : Nat} {pcj : priority_class_data}
    (h : heapTop s = some i) (hj : getClass s j = some pcj) (hq : pcj.queued = true) :
    accOf s i ≤ accOf s j := by
  unfold heapTop at h
  refine List.le_of_mem_argmin ?mem h
  rw [List.mem_filter]
  refine ⟨List.mem_range.mpr (getClass_lt_length hj), ?q⟩
  unfold isQueued
  rw [hj]
  exact hq

/-- C2.  A plugged class re-entering the heap from idle — by queue() on it,
or by plug() when its FIFO is non-empty — first has its accumulated lifted to
max(last_accumulated - handicap, accumulated) in signed 64-bit arithmetic,
with handicap = maxDeviation = fixed_point_factor / shares * tau ticks; a
class already in the heap keeps its accumulated unchanged when queued to. -/
theorem c2_idle_class_insertion (ctx : FQContext) (s : FairQueue) (i : Nat)
    (pc : priority_class_data) (ent : fair_queue_entry)
    (hpc : getClass s i = some pc)
    (hl : s.last_accumulated < 2 ^ 63)
    (hd : maxDeviation ctx pc.shares < 2 ^ 63)
    (ha : pc.accumulated < 2 ^ 63) :
    (pc.plugged = true → pc.queued = false →
      accOf (fq_queue ctx s i ent) i =
        Int.toNat (max ((s.last_accumulated : ℤ) - maxDeviation ctx pc.shares)
          (pc.accumulated : ℤ)) ∧
      isQueued (fq_queue ctx s i ent) i = true) ∧
    (pc.queued = true → accOf (fq_queue ctx s i ent) i = pc.accumulated) ∧
    (pc.plugged = false → pc.queued = false → pc.fifo ≠ [] →
      accOf (plug_class ctx s i) i =
        Int.toNat (max ((s.last_accumulated : ℤ) - maxDeviation ctx pc.shares)
          (pc.accumulated : ℤ)) ∧
      isQueued (plug_class ctx s i) i = true) := by
  have hlen : i < s.classes.length := getClass_lt_length hpc
  refine ⟨fun hplug hq => ?qidle, fun hq => ?qbusy, fun hplug hq hne => ?plugidle⟩
  case qidle =>
    have hy : getClass (fq_queue ctx s i ent) i =
        some { pushFromIdlePC ctx s.last_accumulated pc with
               fifo := (pushFromIdlePC ctx s.last_accumulated pc).fifo ++ [ent] } := by
      simp only [fq_queue, hpc, hplug, if_true]
      exact getClass_setClass_self _ hlen
    unfold accOf isQueued
    rw [hy]
    simp only [pushFromIdlePC, hq]
    exact ⟨signedMax_eq hl hd ha, rfl⟩
  case qbusy =>
    have hy : getClass (fq_queue ctx s i ent) i =
        some { (if pc.plugged then pushFromIdlePC ctx s.last_accumulated pc else pc) with
               fifo := (if pc.plugged then pushFromIdlePC ctx s.last_accumulated pc
                        else pc).fifo ++ [ent] } := by
      simp only [fq_queue, hpc]
      exact getClass_setClass_self _ hlen
    unfold accOf
    rw [hy]
    cases hp : pc.plugged <;> simp [hp, pushFromIdlePC, hq]
  case plugidle =>
    have hy : getClass (plug_class ctx s i) i =
        some (pushFromIdlePC ctx s.last_accumulated { pc with plugged := true }) := by
      simp only [plug_class, hpc, hne, if_true, ne_eq, not_false_iff]
      exact getClass_setClass_self _ hlen
    unfold accOf isQueued
    rw [hy]
    simp only [pushFromIdlePC, hq]
    exact ⟨signedMax_eq hl hd ha, rfl⟩

/-- C2 witness: with tau = 0 the handicap is 0 and the idle class with
accumulated 3 is lifted to last_accumulated = 10 when queued to. -/
theorem c2_witness :
    accOf (fq_queue ctxB sB 0 entA) 0 =
      Int.toNat (max ((sB.last_accumulated : ℤ) - maxDeviation ctxB pcB.shares)
        (pcB.accumulated : ℤ)) ∧
    isQueued (fq_queue ctxB sB 0 entA) 0 = true :=
  (c2_idle_class_insertion ctxB sB 0 pcB entA (by decide) (by decide)
    (by simp [maxDeviation, ctxB, pcB, fixed_point_factor]) (by decide)).1
    (by decide) (by decide)

theorem dispatchIter_grab_eq {ctx : FQContext} {extra : Nat} {s : FairQueue} {d i : Nat}
    {pc : priority_class_data} {e : fair_queue_entry} {rest : List fair_queue_entry}
    {g1 : FairGroup} {p1 : Option Pending}
    (hd : d < ctx.budget) (htop : heapTop s = some i) (hpc : getClass s i = some pc)
    (hfifo : pc.fifo = e :: rest)
    (hgrab : fq_grab_capacity ctx extra s e = (.grabbed, g1, p1)) :
    dispatchIter ctx extra s d =
      (.grab i e (ctx.capFn e.ticket), grabSuccessor ctx s i pc e rest g1 p1) := by
  have hbd : ¬ ctx.budget ≤ d := not_le.mpr hd
  simp only [dispatchIter, hbd, if_false, htop, hpc, hfifo, hgrab]

theorem dispatchIter_pending_eq {ctx : FQContext} {extra : Nat} {s : FairQueue} {d i : Nat}
    {pc : priority_class_data} {e : fair_queue_entry} {rest : List fair_queue_entry}
    {g1 : FairGroup} {p1 : Option Pending}
    (hd : d < ctx.budget) (htop : heapTop s = some i) (hpc : getClass s i = some pc)
    (hfifo : pc.fifo = e :: rest)
    (hgrab : fq_grab_capacity ctx extra s e = (.pending, g1, p1)) :
    dispatchIter ctx extra s d = (.pend, { s with group := g1, pending := p1 }) := by
  have hbd : ¬ ctx.budget ≤ d := not_le.mpr hd
  simp only [dispatchIter, hbd, if_false, htop, hpc, hfifo, hgrab]

theorem dispatchIter_cant_eq {ctx : FQContext} {extra : Nat} {s : FairQueue} {d i : Nat}
    {pc : priority_class_data} {e : fair_queue_entry} {rest : List fair_queue_entry}
    {g1 : FairGroup} {p1 : Option Pending}
    (hd : d < ctx.budget) (htop : heapTop s = some i) (hpc : getClass s i = some pc)
    (hfifo : pc.fifo = e :: rest)
    (hgrab : fq_grab_capacity ctx extra s e = (.cant_preempt, g1, p1)) :
    dispatchIter ctx extra s d =
      (.cant i, setClass { s with group := g1, pending := p1 } i { pc with queued := false }) := by
  have hbd : ¬ ctx.budget ≤ d := not_le.mpr hd
  simp only [dispatchIter, hbd, if_false, htop, hpc, hfifo, hgrab]

theorem dispatchIter_grab_inv {ctx : FQContext} {extra : Nat} {s : FairQueue} {d i : Nat}
    {e : fair_queue_entry} {cap : Nat} {s1 : FairQueue}
    (h : dispatchIter ctx extra s d = (.grab i e cap, s1)) :
    d < ctx.budget ∧ heapTop s = some i ∧
      ∃ pc rest g1 p1, getClass s i = some pc ∧ pc.fifo = e :: rest ∧
        cap = ctx.capFn e.ticket ∧
        fq_grab_capacity ctx extra s e = (.grabbed, g1, p1) ∧
        s1 = grabSuccessor ctx s i pc e rest g1 p1 := by
  unfold dispatchIter at h
  split at h
  · simp at h
  next hbd =>
    split at h
    · simp at h
    next j hj =>
      split at h
      · simp at h
      next pc hpc =>
        split at h
        · simp at h
        next req rest hfifo =>
          split at h
          · simp at h
          · simp at h
          next g1 p1 hgrab =>
            rw [Prod.mk.injEq, IterOut.grab.injEq] at h
            obtain ⟨⟨hij, hre, hcap⟩, hs⟩ := h
            subst hij hre hcap hs
            exact ⟨not_le.mp hbd, hj, pc, rest, g1, p1, hpc, hfifo, rfl, hgrab, rfl⟩

theorem pushFromIdlePC_shares (ctx : FQContext) (last : Nat) (pc : priority_class_data) :
    (pushFromIdlePC ctx last pc).shares = pc.shares := by
  unfold pushFromIdlePC
  split_ifs <;> rfl

theorem renormPC_shares (a : Nat) (pc : priority_class_data) :
    (renormPC a pc).shares = pc.shares := by
  unfold renormPC
  split_ifs <;> rfl

theorem sharesInv_getClass {s : FairQueue} {i : Nat} {pc : priority_class_data}
    (h : SharesInv s) (hpc : getClass s i = some pc) : 1 ≤ pc.shares := by
  unfold SharesInv at h
  rw [List.all_eq_true] at h
  unfold getClass at hpc
  rw [List.getD_eq_getElem?_getD] at hpc
  cases hx : s.classes[i]? with
  | none => rw [hx] at hpc; simp at hpc
  | some o =>
    rw [hx] at hpc
    simp only [Option.getD_some] at hpc
    subst hpc
    simpa [sharesOkB] using h _ (List.getElem?_mem hx)

theorem sharesInv_setClass {s : FairQueue} {i : Nat} {pc : priority_class_data}
    (h : SharesInv s) (hpc : 1 ≤ pc.shares) : SharesInv (setClass s i pc) := by
  unfold SharesInv setClass at *
  rw [List.all_eq_true] at *
  intro o ho
  rcases List.mem_or_eq_of_mem_set ho with hmem | heq
  · exact h o hmem
  · subst heq
    simpa [sharesOkB] using hpc

theorem sharesInv_renormalize {s : FairQueue} {a : Nat} (h : SharesInv s) :
    SharesInv (renormalize s a) := by
  unfold SharesInv renormalize at *
  rw [List.all_eq_true] at *
  intro o ho
  rw [List.mem_map] at ho
  obtain ⟨o0, ho0, rfl⟩ := ho
  have hok := h o0 ho0
  cases o0 with
  | none => simp [sharesOkB]
  | some pc => simpa [sharesOkB, renormPC_shares] using hok

theorem sharesInv_grabSuccessor {ctx : FQContext} {s : FairQueue} {i : Nat}
    {pc : priority_class_data} {e : fair_queue_entry} {rest : List fair_queue_entry}
    {g1 : FairGroup} {p1 : Option Pending} (h : SharesInv s) (hpcs : 1 ≤ pc.shares) :
    SharesInv (grabSuccessor ctx s i pc e rest g1 p1) := by
  simp only [grabSuccessor]
  split_ifs <;>
    apply sharesInv_setClass <;>
    first
      | exact sharesInv_renormalize (sharesInv_setClass h (by simpa using hpcs))
      | exact sharesInv_setClass h (by simpa using hpcs)
      | simpa [renormPC] using hpcs

theorem sharesInv_dispatchIter {ctx : FQContext} {extra : Nat} {s : FairQueue} {d : Nat}
    (h : SharesInv s) : SharesInv ((dispatchIter ctx extra s d).2) := by
  unfold dispatchIter
  split
  · exact h
  split
  · exact h
  next j hj =>
    split
    · exact h
    next pc hpc =>
      split
      · exact sharesInv_setClass h (by simpa using sharesInv_getClass h hpc)
      next req rest hfifo =>
        split
        · exact h
        · exact sharesInv_setClass h (by simpa using sharesInv_getClass h hpc)
        next g1 p1 hgrab =>
          exact sharesInv_grabSuccessor h (sharesInv_getClass h hpc)

theorem sharesInv_pushClass {s : FairQueue} {i : Nat} (h : SharesInv s) :
    SharesInv (pushClass s i) := by
  unfold pushClass
  cases hx : getClass s i with
  | none => exact h
  | some pc =>
    simp only [hx]
    exact sharesInv_setClass h (by simpa using sharesInv_getClass h hx)

theorem sharesInv_dispatchLoop (ctx : FQContext) (repl : Nat → Nat) (fuel : Nat) :
    ∀ k d s, SharesInv s → SharesInv (dispatchLoop ctx repl fuel k d s).1 := by
  induction fuel with
  | zero => intro k d s h; exact h
  | succ n ih =>
    intro k d s h
    unfold dispatchLoop
    cases hit : dispatchIter ctx (repl k) s d with
    | mk out s1 =>
      have h1 : SharesInv s1 := by
        have := @sharesInv_dispatchIter ctx (repl k) s d h
        rw [hit] at this
        exact this
      cases out with
      | halt => simpa using h1
      | pend => simpa using h1
      | cleanup j => simpa using ih (k + 1) d s1 h1
      | cant j => simpa using ih (k + 1) d s1 h1
      | grab j e cap => simpa using ih (k + 1) (add64 d cap) s1 h1

theorem sharesInv_foldl_pushClass {l : List Nat} {s : FairQueue} (h : SharesInv s) :
    SharesInv (l.foldl (fun t i => pushClass t i) s) := by
  induction l generalizing s with
  | nil => exact h
  | cons a l ih => exact ih (sharesInv_pushClass h)

/-- C9.  register_priority_class and update_shares_for_class store
max(shares, 1); every registered class therefore has shares at least 1, the
invariant is preserved by all queue operations including dispatch, and the
divisor used for req_cost on any dispatched class is at least 1 (never a
division by zero). -/
theorem c9_shares_clamped_positive :
    (∀ s i shares, getClass (register_priority_class s i shares) i =
        some (priority_class_data.make shares)) ∧
    (∀ shares, (priority_class_data.make shares).shares = max shares 1 ∧
        1 ≤ (priority_class_data.make shares).shares) ∧
    (∀ s i shares pc, getClass s i = some pc →
        getClass (update_shares_for_class s i shares) i =
          some (pc.update_shares shares)) ∧
    (∀ pc shares, (priority_class_data.update_shares pc shares).shares = max shares 1 ∧
        1 ≤ (priority_class_data.update_shares pc shares).shares) ∧
    (∀ s, SharesInv s → ∀ i shares, SharesInv (register_priority_class s i shares) ∧
        SharesInv (update_shares_for_class s i shares)) ∧
    (∀ ctx s, SharesInv s → ∀ i ent idx, SharesInv (fq_queue ctx s i ent) ∧
        SharesInv (plug_class ctx s i) ∧ SharesInv (unplug_class s i) ∧
        SharesInv (notify_request_cancelled s i idx)) ∧
    (∀ ctx repl fuel s, SharesInv s → SharesInv (dispatch_requests ctx repl fuel s).1) ∧
    (∀ ctx extra s d i e cap s1, SharesInv s →
        dispatchIter ctx extra s d = (IterOut.grab i e cap, s1) →
        ∃ pc, getClass s i = some pc ∧ 1 ≤ pc.shares) := by
  have hreglen : ∀ (s : FairQueue) (i : Nat),
      i < (if s.classes.length ≤ i
        then s.classes ++ List.replicate (i + 1 - s.classes.length) none
        else s.classes).length := by
    intro s i
    split_ifs with hle
    · simp only [List.length_append, List.length_replicate]
      omega
    · omega
  refine ⟨?reg, fun shares => ⟨rfl, by simp [priority_class_data.make]⟩, ?upd,
    fun pc shares => ⟨rfl, by simp [priority_class_data.update_shares]⟩, ?pres, ?ops,
    ?disp, ?divisor⟩
  case reg =>
    intro s i shares
    unfold register_priority_class
    exact getClass_setClass_self (s := { s with classes := _ }) _ (hreglen s i)
  case upd =>
    intro s i shares pc hpc
    unfold update_shares_for_class
    rw [hpc]
    exact getClass_setClass_self _ (getClass_lt_length hpc)
  case pres =>
    intro s h i shares
    constructor
    · unfold register_priority_class SharesInv at *
      rw [List.all_eq_true] at *
      intro o ho
      rcases List.mem_or_eq_of_mem_set ho with hmem | heq
      · split_ifs at hmem with hle
        · rcases List.mem_append.mp hmem with hm | hm
          · exact h o hm
          · rw [List.eq_of_mem_replicate hm]
            rfl
        · exact h o hmem
      · subst heq
        simp [sharesOkB, priority_class_data.make]
    · unfold update_shares_for_class
      cases hx : getClass s i with
      | none => exact h
      | some pc =>
        exact sharesInv_setClass h (by simp [priority_class_data.update_shares])
  case ops =>
    intro ctx s h i ent idx
    refine ⟨?q, ?plug, ?unplug, ?cancel⟩
    case q =>
      unfold fq_queue
      cases hx : getClass s i with
      | none => simp only [hx]; exact h
      | some pc =>
        simp only [hx]
        refine sharesInv_setClass h ?posi
        case posi =>
          split_ifs with hp
          · simpa [pushFromIdlePC_shares] using sharesInv_getClass h hx
          · simpa using sharesInv_getClass h hx
    case plug =>
      unfold plug_class
      cases hx : getClass s i with
      | none => simp only [hx]; exact h
      | some pc =>
        simp only [hx]
        refine sharesInv_setClass h ?posp
        case posp =>
          split_ifs with hp
          · simpa [pushFromIdlePC_shares] using sharesInv_getClass h hx
          · simpa using sharesInv_getClass h hx
    case unplug =>
      unfold unplug_class
      cases hx : getClass s i with
      | none => simp only [hx]; exact h
      | some pc =>
        simp only [hx]
        exact sharesInv_setClass h (by simpa using sharesInv_getClass h hx)
    case cancel =>
      unfold notify_request_cancelled
      cases hx : getClass s i with
      | none => simp only [hx]; exact h
      | some pc =>
        simp only [hx]
        cases hy : pc.fifo.get? idx with
        | none => simp only [hy]; exact h
        | some ent0 =>
          simp only [hy]
          exact sharesInv_setClass h (by simpa using sharesInv_getClass h hx)
  case disp =>
    intro ctx repl fuel s h
    unfold dispatch_requests
    exact sharesInv_foldl_pushClass (sharesInv_dispatchLoop ctx repl fuel 0 0 s h)
  case divisor =>
    intro ctx extra s d i e cap s1 h hit
    obtain ⟨_, _, pc, _, _, _, hpc, _⟩ := dispatchIter_grab_inv hit
    exact ⟨pc, hpc, sharesInv_getClass h hpc⟩

/-- C9 witness: the invariant holds of the example state and is carried
through a full dispatch, and registering with shares = 0 still stores 1. -/
theorem c9_witness :
    getClass (register_priority_class sA 1 0) 1 = some (priority_class_data.make 0) ∧
    (priority_class_data.make 0).shares = max 0 1 ∧
    SharesInv (dispatch_requests ctxA (fun _ => 0) 3 sA).1 :=
  ⟨c9_shares_clamped_positive.1 sA 1 0,
   (c9_shares_clamped_positive.2.1 0).1,
   c9_shares_clamped_positive.2.2.2.2.2.2.1 ctxA (fun _ => 0) 3 sA
     (by unfold SharesInv; decide)⟩

theorem add64_of_lt {a b : Nat} (h : a + b < u64Mod) : add64 a b = a + b := by
  simp only [add64, u64Mod] at *
  omega

theorem sub64_of_le {a b : Nat} (ha : a < u64Mod) (hb : b ≤ a) : sub64 a b = a - b := by
  simp only [sub64, u64Mod] at *
  omega

theorem setClass_length (s : FairQueue) (i : Nat) (pc : priority_class_data) :
    (setClass s i pc).classes.length = s.classes.length := by
  simp [setClass]

/-- C1 counterexample.  In the example single-class state the dispatched
request has cost 5 with shares 1, so after the iteration h.accumulated is 5;
the source records last_accumulated from the value before the increment
(max(0, 0) = 0), while the claim predicts max(0, 5) = 5. -/
theorem c1_counterexample :
    (dispatchIter ctxA 0 sA 0).1 = IterOut.grab 0 entA 5 ∧
    accOf (dispatchIter ctxA 0 sA 0).2 0 = 5 ∧
    (dispatchIter ctxA 0 sA 0).2.last_accumulated = 0 ∧
    (dispatchIter ctxA 0 sA 0).2.last_accumulated ≠
      max sA.last_accumulated (accOf (dispatchIter ctxA 0 sA 0).2 0) :=
  ⟨by decide, by decide, by decide, by decide⟩

/-- C1, corrected claim.  A dispatch iteration that grabs capacity for entry
e of the selected class pc performs exactly the bookkeeping the claim lists,
except that last_accumulated is updated with h.accumulated taken before the
req_cost increment: with cap = ticket_capacity(e.ticket) and
req_cost = max(cap / shares, 1), accumulated grows by req_cost and
pure_accumulated by cap (in the non-overflow regime), the entry is popped,
requests and resources move from queued to executing, and the class returns
to the heap exactly when it is plugged with a non-empty FIFO. -/
theorem c1_dispatch_grab_effects (ctx : FQContext) (extra : Nat) (s : FairQueue)
    (d i : Nat) (e : fair_queue_entry) (cap : Nat) (s1 : FairQueue)
    (pc : priority_class_data) (rest : List fair_queue_entry)
    (hpc : getClass s i = some pc) (hfifo : pc.fifo = e :: rest)
    (hit : dispatchIter ctx extra s d = (IterOut.grab i e cap, s1))
    (hreq : 1 ≤ s.requests_queued)
    (hcap : cap ≤ i64Max)
    (hnovf : pc.accumulated + max (cap / pc.shares) 1 < i64Max)
    (hpure : pc.pure_accumulated + cap < u64Mod) :
    cap = ctx.capFn e.ticket ∧
    accOf s1 i = pc.accumulated + max (cap / pc.shares) 1 ∧
    pureOf s1 i = pc.pure_accumulated + cap ∧
    s1.last_accumulated = max s.last_accumulated pc.accumulated ∧
    fifoOf s1 i = rest ∧
    s1.requests_queued + 1 = s.requests_queued ∧
    s1.requests_executing = s.requests_executing + 1 ∧
    s1.resources_queued = tsub s.resources_queued e.ticket ∧
    s1.resources_executing = tadd s.resources_executing e.ticket ∧
    (isQueued s1 i = true ↔ (pc.plugged = true ∧ rest ≠ [])) := by
  obtain ⟨hd, htop, pc2, rest2, g1, p1, hpc2, hfifo2, hcapeq, hgrab, hs1⟩ :=
    dispatchIter_grab_inv hit
  rw [hpc] at hpc2
  have hpceq := Option.some.inj hpc2
  subst hpceq
  rw [hfifo] at hfifo2
  have hrest : rest = rest2 := by
    simpa using hfifo2
  subst hrest
  subst hcapeq
  subst hs1
  have hlen : i < s.classes.length := getClass_lt_length hpc
  have hrcle : max (ctx.capFn e.ticket / pc.shares) 1 ≤ i64Max := by
    have h1 : ctx.capFn e.ticket / pc.shares ≤ ctx.capFn e.ticket := Nat.div_le_self _ _
    have h2 : (1 : Nat) ≤ i64Max := by unfold i64Max; omega
    omega
  have hcond : ¬ (sub64 i64Max (max (ctx.capFn e.ticket / pc.shares) 1) ≤ pc.accumulated) := by
    rw [sub64_of_le (by unfold i64Max u64Mod; omega) hrcle]
    omega
  have hacc : add64 pc.accumulated (max (ctx.capFn e.ticket / pc.shares) 1) =
      pc.accumulated + max (ctx.capFn e.ticket / pc.shares) 1 :=
    add64_of_lt (by unfold i64Max u64Mod at *; omega)
  have hpureeq : add64 pc.pure_accumulated (ctx.capFn e.ticket) =
      pc.pure_accumulated + ctx.capFn e.ticket :=
    add64_of_lt hpure
  have hlen2 : i < (setClass { s with
      group := g1, pending := p1,
      last_accumulated := max pc.accumulated s.last_accumulated,
      resources_executing := tadd s.resources_executing e.ticket,
      resources_queued := tsub s.resources_queued e.ticket,
      requests_executing := s.requests_executing + 1,
      requests_queued := s.requests_queued - 1 } i
      { pc with queued := false, fifo := rest }).classes.length := by
    rw [setClass_length]
    exact hlen
  refine ⟨rfl, ?acc, ?pure, ?last, ?fifo, ?rq, ?re, ?tq, ?te, ?queued⟩
  case acc =>
    unfold accOf
    simp only [grabSuccessor, if_neg hcond]
    rw [getClass_setClass_self _ hlen2]
    split_ifs <;> simp [hacc]
  case pure =>
    unfold pureOf
    simp only [grabSuccessor, if_neg hcond]
    rw [getClass_setClass_self _ hlen2]
    split_ifs <;> simp [hpureeq]
  case last =>
    simp only [grabSuccessor, if_neg hcond, setClass]
    exact max_comm _ _
  case fifo =>
    unfold fifoOf
    simp only [grabSuccessor, if_neg hcond]
    rw [getClass_setClass_self _ hlen2]
    split_ifs <;> rfl
  case rq =>
    simp only [grabSuccessor, if_neg hcond, setClass]
    omega
  case re =>
    simp only [grabSuccessor, if_neg hcond, setClass]
  case tq =>
    simp only [grabSuccessor, if_neg hcond, setClass]
  case te =>
    simp only [grabSuccessor, if_neg hcond, setClass]
  case queued =>
    unfold isQueued
    simp only [grabSuccessor, if_neg hcond]
    rw [getClass_setClass_self _ hlen2]
    split_ifs with hcq
    · simpa using hcq
    · simp only [Bool.false_eq_true, false_iff]
      exact fun hx => hcq (by simpa using hx)

/-- C1 witness: the corrected effect list applied to the example state. -/
theorem c1_witness :
    (5 : Nat) = ctxA.capFn entA.ticket ∧
    accOf (dispatchIter ctxA 0 sA 0).2 0 = pcA.accumulated + max (5 / pcA.shares) 1 ∧
    pureOf (dispatchIter ctxA 0 sA 0).2 0 = pcA.pure_accumulated + 5 ∧
    (dispatchIter ctxA 0 sA 0).2.last_accumulated =
      max sA.last_accumulated pcA.accumulated ∧
    fifoOf (dispatchIter ctxA 0 sA 0).2 0 = [] ∧
    (dispatchIter ctxA 0 sA 0).2.requests_queued + 1 = sA.requests_queued ∧
    (dispatchIter ctxA 0 sA 0).2.requests_executing = sA.requests_executing + 1 ∧
    (dispatchIter ctxA 0 sA 0).2.resources_queued = tsub sA.resources_queued entA.ticket ∧
    (dispatchIter ctxA 0 sA 0).2.resources_executing =
      tadd sA.resources_executing entA.ticket ∧
    (isQueued (dispatchIter ctxA 0 sA 0).2 0 = true ↔ (pcA.plugged = true ∧
      ([] : List fair_queue_entry) ≠ [])) :=
  c1_dispatch_grab_effects ctxA 0 sA 0 0 entA 5 (dispatchIter ctxA 0 sA 0).2 pcA []
    (by decide) (by decide) (by decide) (by decide) (by decide) (by decide) (by decide)

theorem tadd_zeroTicket {t : fair_queue_ticket} (hw : t.weight < u32Mod)
    (hs : t.size < u32Mod) : tadd t zeroTicket = t := by
  cases t with
  | mk w s =>
    simp only [tadd, add32, zeroTicket, u32Mod, fair_queue_ticket.mk.injEq] at *
    omega

theorem tsub_zeroTicket {t : fair_queue_ticket} (hw : t.weight < u32Mod)
    (hs : t.size < u32Mod) : tsub t zeroTicket = t := by
  cases t with
  | mk w s =>
    simp only [tsub, sub32, zeroTicket, u32Mod, fair_queue_ticket.mk.injEq] at *
    omega

theorem add64_zero {a : Nat} (h : a < u64Mod) : add64 a 0 = a := by
  simp only [add64, u64Mod] at *
  omega

/-- C6.  Cancelling a still-queued entry zeroes its ticket and subtracts the
former ticket from resources_queued, changing nothing else: the entry keeps
its FIFO position, every other entry, class field, counter, the heap, the
pending record and the group are untouched.  And dispatching an entry whose
ticket is the zero ticket (with no pending record and a satisfied bucket)
grabs zero tokens: the group rovers and the resource counters are exactly
preserved. -/
theorem c6_cancel_frame_and_zero_grab (s : FairQueue) (i idx : Nat)
    (pc : priority_class_data) (ent : fair_queue_entry)
    (hpc : getClass s i = some pc) (hent : pc.fifo.get? idx = some ent) :
    ((notify_request_cancelled s i idx).resources_queued =
        tsub s.resources_queued ent.ticket ∧
      getClass (notify_request_cancelled s i idx) i =
        some { pc with fifo := pc.fifo.set idx { ent with ticket := zeroTicket } } ∧
      (∀ j, j ≠ i → getClass (notify_request_cancelled s i idx) j = getClass s j) ∧
      (notify_request_cancelled s i idx).requests_queued = s.requests_queued ∧
      (notify_request_cancelled s i idx).requests_executing = s.requests_executing ∧
      (notify_request_cancelled s i idx).resources_executing = s.resources_executing ∧
      (notify_request_cancelled s i idx).last_accumulated = s.last_accumulated ∧
      (notify_request_cancelled s i idx).pending = s.pending ∧
      (notify_request_cancelled s i idx).group = s.group ∧
      (∀ j, isQueued (notify_request_cancelled s i idx) j = isQueued s j) ∧
      (fifoOf (notify_request_cancelled s i idx) i).length = pc.fifo.length ∧
      (∀ k, k ≠ idx → (fifoOf (notify_request_cancelled s i idx) i).get? k =
        pc.fifo.get? k) ∧
      (fifoOf (notify_request_cancelled s i idx) i).get? idx =
        some { ent with ticket := zeroTicket }) ∧
    (∀ ctx extra (s0 : FairQueue) d i0 pc0 e0 rest0,
      getClass s0 i0 = some pc0 → heapTop s0 = some i0 → pc0.fifo = e0 :: rest0 →
      e0.ticket = zeroTicket → ctx.capFn zeroTicket = 0 → s0.pending = none →
      d < ctx.budget → s0.group.tail < u64Mod →
      s0.group.capacity_deficiency s0.group.tail = 0 →
      s0.resources_executing.weight < u32Mod → s0.resources_executing.size < u32Mod →
      s0.resources_queued.weight < u32Mod → s0.resources_queued.size < u32Mod →
      (dispatchIter ctx extra s0 d).1 = IterOut.grab i0 e0 0 ∧
      (dispatchIter ctx extra s0 d).2.group = s0.group ∧
      (dispatchIter ctx extra s0 d).2.resources_executing = s0.resources_executing ∧
      (dispatchIter ctx extra s0 d).2.resources_queued = s0.resources_queued) := by
  constructor
  case left =>
    have hlen : i < s.classes.length := getClass_lt_length hpc
    have hidx : idx < pc.fifo.length := by
      by_contra hge
      push_neg at hge
      rw [List.get?_eq_none.mpr hge] at hent
      exact Option.noConfusion hent
    have hc : notify_request_cancelled s i idx =
        setClass { s with resources_queued := tsub s.resources_queued ent.ticket } i
          { pc with fifo := pc.fifo.set idx { ent with ticket := zeroTicket } } := by
      simp only [notify_request_cancelled, hpc, hent]
    rw [hc]
    have hgi : getClass (setClass { s with
        resources_queued := tsub s.resources_queued ent.ticket } i
        { pc with fifo := pc.fifo.set idx { ent with ticket := zeroTicket } }) i =
        some { pc with fifo := pc.fifo.set idx { ent with ticket := zeroTicket } } :=
      getClass_setClass_self _ hlen
    refine ⟨rfl, hgi, ?oth, rfl, rfl, rfl, rfl, rfl, rfl, ?qs, ?len, ?others, ?atidx⟩
    case oth =>
      intro j hj
      exact getClass_setClass_ne _ hj
    case qs =>
      intro j
      by_cases hj : j = i
      · subst hj
        unfold isQueued
        rw [hgi, hpc]
      · unfold isQueued
        rw [getClass_setClass_ne _ hj]
        rfl
    case len =>
      unfold fifoOf
      rw [hgi]
      simp
    case others =>
      intro k hk
      unfold fifoOf
      rw [hgi]
      exact List.get?_set_ne _ _ (Ne.symm hk)
    case atidx =>
      unfold fifoOf
      rw [hgi]
      exact List.get?_set_eq_of_lt _ hidx
  case right =>
    intro ctx extra s0 d i0 pc0 e0 rest0 hpc0 htop hfifo hzt hz hpend hd htl hdef
      hw1 hs1 hw2 hs2
    have hcap0 : ctx.capFn e0.ticket = 0 := by rw [hzt]; exact hz
    have htail : add64 s0.group.tail 0 = s0.group.tail := add64_zero htl
    have heta : ({ s0.group with tail := s0.group.tail } : FairGroup) = s0.group := rfl
    have hgrab : fq_grab_capacity ctx extra s0 e0 = (.grabbed, s0.group, none) := by
      simp only [fq_grab_capacity, hpend, hcap0, FairGroup.grab_capacity, htail, heta,
        hdef, ne_eq, not_true_eq_false, if_false]
    have hit := dispatchIter_grab_eq hd htop hpc0 hfifo hgrab
    rw [hit]
    refine ⟨by rw [hcap0], ?grp, ?rex, ?rqd⟩
    case grp =>
      simp only [grabSuccessor, setClass]
      split_ifs <;> rfl
    case rex =>
      have : tadd s0.resources_executing e0.ticket = s0.resources_executing := by
        rw [hzt]
        exact tadd_zeroTicket hw1 hs1
      simp only [grabSuccessor, setClass]
      split_ifs <;> simpa [renormalize] using this
    case rqd =>
      have : tsub s0.resources_queued e0.ticket = s0.resources_queued := by
        rw [hzt]
        exact tsub_zeroTicket hw2 hs2
      simp only [grabSuccessor, setClass]
      split_ifs <;> simpa [renormalize] using this

/-- C6 witness: cancelling the queued entry of the example state and the
zero-token dispatch of an already-cancelled entry. -/
theorem c6_witness :
    ((notify_request_cancelled sA 0 0).resources_queued =
        tsub sA.resources_queued entA.ticket ∧
      getClass (notify_request_cancelled sA 0 0) 0 =
        some { pcA with fifo := pcA.fifo.set 0 { entA with ticket := zeroTicket } }) ∧
    ((dispatchIter ctxZ 0 sZ 0).1 = IterOut.grab 0 entZ 0 ∧
      (dispatchIter ctxZ 0 sZ 0).2.group = sZ.group) := by
  have h := c6_cancel_frame_and_zero_grab sA 0 0 pcA entA (by decide) (by decide)
  have hz := h.2 ctxZ 0 sZ 0 0 pcZ entZ [] (by decide) (by decide) (by decide) (by decide)
    (by decide) (by decide) (by decide) (by decide) (by decide) (by decide) (by decide)
    (by decide) (by decide)
  exact ⟨⟨h.1.1, h.1.2.1⟩, hz.1, hz.2.1⟩

theorem renormalize_length (s : FairQueue) (a : Nat) :
    (renormalize s a).classes.length = s.classes.length := by
  simp [renormalize]

theorem getClass_grabSuccessor_ne {ctx : FQContext} {s : FairQueue} {i : Nat}
    {pc : priority_class_data} {e : fair_queue_entry} {rest : List fair_queue_entry}
    {g1 : FairGroup} {p1 : Option Pending} {j : Nat} (hne : j ≠ i) :
    getClass (grabSuccessor ctx s i pc e rest g1 p1) j =
      if sub64 i64Max (max (ctx.capFn e.ticket / pc.shares) 1) ≤ pc.accumulated
      then Option.map (renormPC pc.accumulated) (getClass s j)
      else getClass s j := by
  by_cases hcond : sub64 i64Max (max (ctx.capFn e.ticket / pc.shares) 1) ≤ pc.accumulated
  · rw [if_pos hcond]
    simp only [grabSuccessor, if_pos hcond]
    rw [getClass_setClass_ne _ hne, getClass_renormalize, getClass_setClass_ne _ hne]
    rfl
  · rw [if_neg hcond]
    simp only [grabSuccessor, if_neg hcond]
    rw [getClass_setClass_ne _ hne, getClass_setClass_ne _ hne]
    rfl

theorem grabSuccessor_last {ctx : FQContext} {s : FairQueue} {i : Nat}
    {pc : priority_class_data} {e : fair_queue_entry} {rest : List fair_queue_entry}
    {g1 : FairGroup} {p1 : Option Pending} :
    (grabSuccessor ctx s i pc e rest g1 p1).last_accumulated =
      if sub64 i64Max (max (ctx.capFn e.ticket / pc.shares) 1) ≤ pc.accumulated
      then 0
      else max pc.accumulated s.last_accumulated := by
  simp only [grabSuccessor]
  split_ifs <;> rfl

/-- C3.  The dispatch iteration renormalizes exactly when
accumulated + req_cost reaches the signed 64-bit maximum: every other
currently-queued registered class has the selected class's accumulated
subtracted (equal to the zero-clamped difference, since the selected class
was the heap minimum), every registered non-queued class is zeroed (the
selected class then holds exactly req_cost after its increment),
last_dispatched_accumulated is zeroed, and the relative order of accumulated
across the still-queued classes is unchanged; without the overflow condition
no accumulated of another class changes. -/
theorem c3_overflow_renormalization (ctx : FQContext) (extra : Nat) (s : FairQueue)
    (d i : Nat) (e : fair_queue_entry) (cap : Nat) (s1 : FairQueue)
    (pc : priority_class_data) (rest : List fair_queue_entry)
    (hpc : getClass s i = some pc) (hfifo : pc.fifo = e :: rest)
    (hit : dispatchIter ctx extra s d = (IterOut.grab i e cap, s1))
    (hcap : cap ≤ i64Max)
    (hbound : ∀ j pcj, getClass s j = some pcj → pcj.accumulated < u64Mod)
    (hmin : ∀ j pcj, getClass s j = some pcj → pcj.queued = true →
      pc.accumulated ≤ pcj.accumulated) :
    (sub64 i64Max (max (cap / pc.shares) 1) ≤ pc.accumulated ↔
      i64Max ≤ pc.accumulated + max (cap / pc.shares) 1) ∧
    (i64Max ≤ pc.accumulated + max (cap / pc.shares) 1 →
      (∀ j pcj, j ≠ i → getClass s j = some pcj →
        (pcj.queued = true → accOf s1 j = pcj.accumulated - pc.accumulated) ∧
        (pcj.queued = false → accOf s1 j = 0)) ∧
      accOf s1 i = max (cap / pc.shares) 1 ∧
      s1.last_accumulated = 0 ∧
      (∀ j k pcj pck, getClass s j = some pcj → getClass s k = some pck →
        pcj.queued = true → pck.queued = true → j ≠ i → k ≠ i →
        (accOf s1 j ≤ accOf s1 k ↔ pcj.accumulated ≤ pck.accumulated))) ∧
    (pc.accumulated + max (cap / pc.shares) 1 < i64Max →
      (∀ j pcj, j ≠ i → getClass s j = some pcj → accOf s1 j = pcj.accumulated) ∧
      s1.last_accumulated = max s.last_accumulated pc.accumulated) := by
  obtain ⟨hd, htop, pc2, rest2, g1, p1, hpc2, hfifo2, hcapeq, hgrab, hs1⟩ :=
    dispatchIter_grab_inv hit
  rw [hpc] at hpc2
  have hpceq := Option.some.inj hpc2
  subst hpceq
  rw [hfifo] at hfifo2
  have hrest : rest = rest2 := by simpa using hfifo2
  subst hrest
  subst hcapeq
  subst hs1
  have hlen : i < s.classes.length := getClass_lt_length hpc
  have hrcle : max (ctx.capFn e.ticket / pc.shares) 1 ≤ i64Max := by
    have h1 : ctx.capFn e.ticket / pc.shares ≤ ctx.capFn e.ticket := Nat.div_le_self _ _
    have h2 : (1 : Nat) ≤ i64Max := by unfold i64Max; omega
    omega
  have htrig : sub64 i64Max (max (ctx.capFn e.ticket / pc.shares) 1) ≤ pc.accumulated ↔
      i64Max ≤ pc.accumulated + max (ctx.capFn e.ticket / pc.shares) 1 := by
    rw [sub64_of_le (by unfold i64Max u64Mod; omega) hrcle]
    omega
  refine ⟨htrig, ?ovf, ?novf⟩
  case ovf =>
    intro hging
    have hcond := htrig.mpr hging
    have hother : ∀ j pcj, j ≠ i → getClass s j = some pcj →
        getClass (grabSuccessor ctx s i pc e rest g1 p1) j =
          some (renormPC pc.accumulated pcj) := by
      intro j pcj hne hj
      rw [getClass_grabSuccessor_ne hne, if_pos hcond, hj]
      rfl
    refine ⟨?each, ?self, ?last, ?order⟩
    case each =>
      intro j pcj hne hj
      constructor
      · intro hq
        unfold accOf
        rw [hother j pcj hne hj]
        simp only [renormPC, hq, if_true]
        exact sub64_of_le (hbound j pcj hj) (hmin j pcj hj hq)
      · intro hq
        unfold accOf
        rw [hother j pcj hne hj]
        simp [renormPC, hq]
    case self =>
      have hlen3 : i < (renormalize (setClass { s with
          group := g1, pending := p1,
          last_accumulated := max pc.accumulated s.last_accumulated,
          resources_executing := tadd s.resources_executing e.ticket,
          resources_queued := tsub s.resources_queued e.ticket,
          requests_executing := s.requests_executing + 1,
          requests_queued := s.requests_queued - 1 } i
          { pc with queued := false, fifo := rest }) pc.accumulated).classes.length := by
        rw [renormalize_length, setClass_length]
        exact hlen
      have hadd : add64 0 (max (ctx.capFn e.ticket / pc.shares) 1) =
          max (ctx.capFn e.ticket / pc.shares) 1 := by
        unfold i64Max at hrcle
        unfold add64 u64Mod
        omega
      unfold accOf
      simp only [grabSuccessor, if_pos hcond]
      rw [getClass_setClass_self _ hlen3]
      split_ifs <;> simp [renormPC, hadd]
    case last =>
      rw [grabSuccessor_last, if_pos hcond]
    case order =>
      intro j k pcj pck hj hk hqj hqk hnej hnek
      have haj : accOf (grabSuccessor ctx s i pc e rest g1 p1) j =
          pcj.accumulated - pc.accumulated := by
        unfold accOf
        rw [hother j pcj hnej hj]
        simp only [renormPC, hqj, if_true]
        exact sub64_of_le (hbound j pcj hj) (hmin j pcj hj hqj)
      have hak : accOf (grabSuccessor ctx s i pc e rest g1 p1) k =
          pck.accumulated - pc.accumulated := by
        unfold accOf
        rw [hother k pck hnek hk]
        simp only [renormPC, hqk, if_true]
        exact sub64_of_le (hbound k pck hk) (hmin k pck hk hqk)
      rw [haj, hak]
      have h1 := hmin j pcj hj hqj
      have h2 := hmin k pck hk hqk
      omega
  case novf =>
    intro hlt
    have hcond : ¬ (sub64 i64Max (max (ctx.capFn e.ticket / pc.shares) 1) ≤
        pc.accumulated) := fun hc => absurd (htrig.mp hc) (by omega)
    constructor
    · intro j pcj hne hj
      unfold accOf
      rw [getClass_grabSuccessor_ne hne, if_neg hcond, hj]
    · rw [grabSuccessor_last, if_neg hcond]
      exact max_comm _ _

/-- C3 witness: in the two-class example the selected class sits req_cost
short of the signed maximum, renormalization fires, the bystander keeps its
distance (1) and the selected class restarts at req_cost = 5. -/
theorem c3_witness :
    accOf (dispatchIter ctxA 0 sC 0).2 1 = pcD.accumulated - pcC.accumulated ∧
    accOf (dispatchIter ctxA 0 sC 0).2 0 = max (5 / pcC.shares) 1 ∧
    (dispatchIter ctxA 0 sC 0).2.last_accumulated = 0 := by
  have hbC : ∀ j pcj, getClass sC j = some pcj → pcj.accumulated < u64Mod := by
    intro j pcj hj
    have hl : j < 2 := by simpa [sC] using getClass_lt_length hj
    interval_cases j
    · rw [show getClass sC 0 = some pcC from rfl] at hj
      cases Option.some.inj hj
      decide
    · rw [show getClass sC 1 = some pcD from rfl] at hj
      cases Option.some.inj hj
      decide
  have hmC : ∀ j pcj, getClass sC j = some pcj → pcj.queued = true →
      pcC.accumulated ≤ pcj.accumulated := by
    intro j pcj hj hq
    have hl : j < 2 := by simpa [sC] using getClass_lt_length hj
    interval_cases j
    · rw [show getClass sC 0 = some pcC from rfl] at hj
      cases Option.some.inj hj
      decide
    · rw [show getClass sC 1 = some pcD from rfl] at hj
      cases Option.some.inj hj
      decide
  have h := c3_overflow_renormalization ctxA 0 sC 0 0 entC 5 (dispatchIter ctxA 0 sC 0).2
    pcC [] (by decide) (by decide) (by decide) (by decide) hbC hmC
  have hov := h.2.1 (by decide)
  exact ⟨((hov.1 1 pcD (by decide) (by decide)).1 (by decide)), hov.2.1, hov.2.2.1⟩

theorem renormPC_fifo (a : Nat) (pc : priority_class_data) :
    (renormPC a pc).fifo = pc.fifo := by
  unfold renormPC
  split_ifs <;> rfl

theorem grabSuccessor_length {ctx : FQContext} {s : FairQueue} {i : Nat}
    {pc : priority_class_data} {e : fair_queue_entry} {rest : List fair_queue_entry}
    {g1 : FairGroup} {p1 : Option Pending} :
    (grabSuccessor ctx s i pc e rest g1 p1).classes.length = s.classes.length := by
  simp only [grabSuccessor]
  split_ifs <;> simp [setClass_length, renormalize_length]

theorem getClass_grabSuccessor_self_fifo {ctx : FQContext} {s : FairQueue} {i : Nat}
    {pc : priority_class_data} {e : fair_queue_entry} {rest : List fair_queue_entry}
    {g1 : FairGroup} {p1 : Option Pending} (hlen : i < s.classes.length) :
    ∃ pcf, getClass (grabSuccessor ctx s i pc e rest g1 p1) i = some pcf ∧
      pcf.fifo = rest := by
  by_cases hcond : sub64 i64Max (max (ctx.capFn e.ticket / pc.shares) 1) ≤ pc.accumulated
  · simp only [grabSuccessor, if_pos hcond]
    refine ⟨_, getClass_setClass_self _
      (by rw [renormalize_length, setClass_length]; exact hlen), ?f⟩
    split_ifs <;> simp [renormPC_fifo]
  · simp only [grabSuccessor, if_neg hcond]
    refine ⟨_, getClass_setClass_self _ (by rw [setClass_length]; exact hlen), ?f2⟩
    split_ifs <;> rfl

theorem dispatchIter_cases (ctx : FQContext) (extra : Nat) (s : FairQueue) (d : Nat) :
    (∃ s1, dispatchIter ctx extra s d = (.halt, s1) ∧ s1.classes = s.classes) ∨
    (∃ s1, dispatchIter ctx extra s d = (.pend, s1) ∧ s1.classes = s.classes) ∨
    (∃ i pc, dispatchIter ctx extra s d =
        (.cleanup i, setClass s i { pc with queued := false }) ∧
      getClass s i = some pc ∧ pc.fifo = []) ∨
    (∃ i pc e rest g1 p1, dispatchIter ctx extra s d =
        (.cant i, setClass { s with group := g1, pending := p1 } i
          { pc with queued := false }) ∧
      getClass s i = some pc ∧ pc.fifo = e :: rest) ∨
    (∃ i pc e rest g1 p1, dispatchIter ctx extra s d =
        (.grab i e (ctx.capFn e.ticket), grabSuccessor ctx s i pc e rest g1 p1) ∧
      getClass s i = some pc ∧ pc.fifo = e :: rest) := by
  unfold dispatchIter
  split
  · exact Or.inl ⟨s, rfl, rfl⟩
  split
  · exact Or.inl ⟨s, rfl, rfl⟩
  next i hi =>
    split
    · exact Or.inl ⟨s, rfl, rfl⟩
    next pc hpc =>
      split
      · exact Or.inr (Or.inr (Or.inl ⟨i, pc, rfl, hpc, by assumption⟩))
      next e rest hfifo =>
        split
        next g1 p1 hgrab => exact Or.inr (Or.inl ⟨_, rfl, rfl⟩)
        next g1 p1 hgrab =>
          exact Or.inr (Or.inr (Or.inr (Or.inl ⟨i, pc, e, rest, g1, p1, rfl, hpc, hfifo⟩)))
        next g1 p1 hgrab =>
          exact Or.inr (Or.inr (Or.inr (Or.inr ⟨i, pc, e, rest, g1, p1, rfl, hpc, hfifo⟩)))

theorem classes_singleton {l : List (Option priority_class_data)}
    {pcf : priority_class_data} (h1 : l.length = 1) (h2 : l.getD 0 none = some pcf) :
    l = [some pcf] := by
  cases l with
  | nil => simp at h1
  | cons x xs =>
    cases xs with
    | nil =>
      simp only [List.getD, List.get?, Option.getD_some] at h2
      rw [show x = some pcf from h2]
    | cons y ys => simp at h1

theorem dispatchLoop_single_fifo (ctx : FQContext) (repl : Nat → Nat) :
    ∀ fuel k d (pc : priority_class_data) (s : FairQueue), s.classes = [some pc] →
      ∃ t, pc.fifo = (dispatchLoop ctx repl fuel k d s).2.1 ++ t := by
  intro fuel
  induction fuel with
  | zero =>
    intro k d pc s hs
    exact ⟨pc.fifo, rfl⟩
  | succ n ih =>
    intro k d pc s hs
    have hgc0 : getClass s 0 = some pc := by
      unfold getClass
      rw [hs]
      rfl
    have hone : s.classes.length = 1 := by rw [hs]; rfl
    rcases dispatchIter_cases ctx (repl k) s d with
      ⟨s1, hit, hcl⟩ | ⟨s1, hit, hcl⟩ | ⟨i, pci, hit, hgc, hfe⟩ |
      ⟨i, pci, e, rest, g1, p1, hit, hgc, hfifo⟩ |
      ⟨i, pci, e, rest, g1, p1, hit, hgc, hfifo⟩
    · unfold dispatchLoop
      rw [hit]
      exact ⟨pc.fifo, rfl⟩
    · unfold dispatchLoop
      rw [hit]
      exact ⟨pc.fifo, rfl⟩
    · have hlt := getClass_lt_length hgc
      rw [hone] at hlt
      have hi0 : i = 0 := by omega
      subst hi0
      rw [hgc0] at hgc
      have hpceq := Option.some.inj hgc
      subst hpceq
      have hs1c : (setClass s 0 { pc with queued := false }).classes =
          [some { pc with queued := false }] := by
        simp [setClass, hs]
      unfold dispatchLoop
      rw [hit]
      simpa using ih (k + 1) d { pc with queued := false } _ hs1c
    · have hlt := getClass_lt_length hgc
      rw [hone] at hlt
      have hi0 : i = 0 := by omega
      subst hi0
      rw [hgc0] at hgc
      have hpceq := Option.some.inj hgc
      subst hpceq
      have hs1c : (setClass { s with group := g1, pending := p1 } 0
          { pc with queued := false }).classes =
          [some { pc with queued := false }] := by
        simp [setClass, hs]
      unfold dispatchLoop
      rw [hit]
      simpa using ih (k + 1) d { pc with queued := false } _ hs1c
    · have hlt := getClass_lt_length hgc
      rw [hone] at hlt
      have hi0 : i = 0 := by omega
      subst hi0
      rw [hgc0] at hgc
      have hpceq := Option.some.inj hgc
      subst hpceq
      obtain ⟨pcf, hgcf, hff⟩ := @getClass_grabSuccessor_self_fifo ctx s 0 pc e rest g1 p1
        (by rw [hone]; omega)
      have hlen1 : (grabSuccessor ctx s 0 pc e rest g1 p1).classes.length = 1 := by
        rw [grabSuccessor_length, hone]
      have hs1c := classes_singleton hlen1 hgcf
      unfold dispatchLoop
      rw [hit]
      obtain ⟨t, ht⟩ := ih (k + 1) (add64 d (ctx.capFn e.ticket)) pcf _ hs1c
      refine ⟨t, ?tail⟩
      rw [hfifo]
      simp only [List.cons_append]
      rw [hff] at ht
      exact congrArg (List.cons e) ht

/-- C5.  Every dispatched entry is the front entry of the FIFO of a class in
the heap whose accumulated is minimal among the queued classes at selection
time, and for a single-class workload the dispatched entries form a prefix of
the class FIFO, i.e. they come out in insertion order. -/
theorem c5_min_class_fifo_order :
    (∀ ctx extra (s : FairQueue) d i e cap s1,
      dispatchIter ctx extra s d = (IterOut.grab i e cap, s1) →
      ∃ pc, getClass s i = some pc ∧ pc.queued = true ∧ pc.fifo.head? = some e ∧
        ∀ j pcj, getClass s j = some pcj → pcj.queued = true →
          pc.accumulated ≤ pcj.accumulated) ∧
    (∀ ctx repl fuel (pc : priority_class_data) (s : FairQueue),
      s.classes = [some pc] →
      ∃ t, pc.fifo = (dispatch_requests ctx repl fuel s).2 ++ t) := by
  constructor
  · intro ctx extra s d i e cap s1 hit
    obtain ⟨hd, htop, pc, rest, g1, p1, hpc, hfifo, hcapeq, hgrab, hs1⟩ :=
      dispatchIter_grab_inv hit
    refine ⟨pc, hpc, ?q, ?hd, ?min⟩
    case q =>
      have hq := (heapTop_isQueued htop).1
      unfold isQueued at hq
      rw [hpc] at hq
      exact hq
    case hd =>
      rw [hfifo]
      rfl
    case min =>
      intro j pcj hj hqj
      have hmn := heapTop_min htop hj hqj
      unfold accOf at hmn
      rw [hpc, hj] at hmn
      exact hmn
  · intro ctx repl fuel pc s hs
    unfold dispatch_requests
    exact dispatchLoop_single_fifo ctx repl fuel 0 0 pc s hs

/-- C5 witness: in the single-class example the dispatched entry is the FIFO
front of the minimal class and the output is a prefix of the FIFO. -/
theorem c5_witness :
    (∃ pc, getClass sA 0 = some pc ∧ pc.queued = true ∧ pc.fifo.head? = some entA ∧
      ∀ j pcj, getClass sA j = some pcj → pcj.queued = true →
        pc.accumulated ≤ pcj.accumulated) ∧
    (∃ t, pcA.fifo = (dispatch_requests ctxA (fun _ => 0) 2 sA).2 ++ t) :=
  ⟨c5_min_class_fifo_order.1 ctxA 0 sA 0 0 entA 5 (dispatchIter ctxA 0 sA 0).2 (by decide),
   c5_min_class_fifo_order.2 ctxA (fun _ => 0) 2 pcA sA (by decide)⟩

theorem grabSuccessor_pending {ctx : FQContext} {s : FairQueue} {i : Nat}
    {pc : priority_class_data} {e : fair_queue_entry} {rest : List fair_queue_entry}
    {g1 : FairGroup} {p1 : Option Pending} :
    (grabSuccessor ctx s i pc e rest g1 p1).pending = p1 := by
  simp only [grabSuccessor]
  split_ifs <;> rfl

theorem grabSuccessor_group {ctx : FQContext} {s : FairQueue} {i : Nat}
    {pc : priority_class_data} {e : fair_queue_entry} {rest : List fair_queue_entry}
    {g1 : FairGroup} {p1 : Option Pending} :
    (grabSuccessor ctx s i pc e rest g1 p1).group = g1 := by
  simp only [grabSuccessor]
  split_ifs <;> rfl

theorem getClass_congr {s1 s2 : FairQueue} (h : s1.classes = s2.classes) (j : Nat) :
    getClass s1 j = getClass s2 j := by
  unfold getClass
  rw [h]

theorem dispatchIter_registered {ctx : FQContext} {extra : Nat} {s : FairQueue} {d j : Nat}
    {pcj : priority_class_data} (h : getClass s j = some pcj) :
    ∃ pc2, getClass ((dispatchIter ctx extra s d).2) j = some pc2 := by
  rcases dispatchIter_cases ctx extra s d with
    ⟨s1, hit, hcl⟩ | ⟨s1, hit, hcl⟩ | ⟨i, pci, hit, hgc, hfe⟩ |
    ⟨i, pci, e, rest, g1, p1, hit, hgc, hfifo⟩ |
    ⟨i, pci, e, rest, g1, p1, hit, hgc, hfifo⟩
  · rw [hit]
    exact ⟨pcj, by rw [getClass_congr hcl j]; exact h⟩
  · rw [hit]
    exact ⟨pcj, by rw [getClass_congr hcl j]; exact h⟩
  · rw [hit]
    by_cases hji : j = i
    · subst hji
      exact ⟨_, getClass_setClass_self _ (getClass_lt_length h)⟩
    · exact ⟨pcj, by rw [getClass_setClass_ne _ hji]; exact h⟩
  · rw [hit]
    by_cases hji : j = i
    · subst hji
      exact ⟨_, getClass_setClass_self _ (getClass_lt_length h)⟩
    · exact ⟨pcj, by rw [getClass_setClass_ne _ hji]; exact h⟩
  · rw [hit]
    by_cases hji : j = i
    · subst hji
      obtain ⟨pcf, hf, _⟩ := @getClass_grabSuccessor_self_fifo ctx s j pci e rest g1 p1
        (getClass_lt_length h)
      exact ⟨pcf, hf⟩
    · rw [getClass_grabSuccessor_ne hji]
      split_ifs
      · exact ⟨renormPC pci.accumulated pcj, by rw [h]; rfl⟩
      · exact ⟨pcj, h⟩

theorem dispatchLoop_registered (ctx : FQContext) (repl : Nat → Nat) :
    ∀ fuel k d (s : FairQueue) j pcj, getClass s j = some pcj →
      ∃ pc2, getClass (dispatchLoop ctx repl fuel k d s).1 j = some pc2 := by
  intro fuel
  induction fuel with
  | zero => exact fun k d s j pcj h => ⟨pcj, h⟩
  | succ n ih =>
    intro k d s j pcj h
    have hreg := @dispatchIter_registered ctx (repl k) s d j pcj h
    unfold dispatchLoop
    cases hit : dispatchIter ctx (repl k) s d with
    | mk out s1 =>
      rw [hit] at hreg
      obtain ⟨pc2, hpc2⟩ := hreg
      cases out with
      | halt => exact ⟨pc2, hpc2⟩
      | pend => exact ⟨pc2, hpc2⟩
      | cleanup i => simpa using ih (k + 1) d s1 j pc2 hpc2
      | cant i => simpa using ih (k + 1) d s1 j pc2 hpc2
      | grab i e cap => simpa using ih (k + 1) (add64 d cap) s1 j pc2 hpc2

theorem dispatchLoop_preempt_registered (ctx : FQContext) (repl : Nat → Nat) :
    ∀ fuel k d (s : FairQueue) j, j ∈ (dispatchLoop ctx repl fuel k d s).2.2 →
      ∃ pc2, getClass (dispatchLoop ctx repl fuel k d s).1 j = some pc2 := by
  intro fuel
  induction fuel with
  | zero =>
    intro k d s j hmem
    simp [dispatchLoop] at hmem
  | succ n ih =>
    intro k d s j hmem
    rcases dispatchIter_cases ctx (repl k) s d with
      ⟨s1, hit, hcl⟩ | ⟨s1, hit, hcl⟩ | ⟨i, pci, hit, hgc, hfe⟩ |
      ⟨i, pci, e, rest, g1, p1, hit, hgc, hfifo⟩ |
      ⟨i, pci, e, rest, g1, p1, hit, hgc, hfifo⟩
    · unfold dispatchLoop at hmem ⊢
      rw [hit] at hmem ⊢
      simp at hmem
    · unfold dispatchLoop at hmem ⊢
      rw [hit] at hmem ⊢
      simp at hmem
    · unfold dispatchLoop at hmem ⊢
      rw [hit] at hmem ⊢
      exact ih (k + 1) d _ j hmem
    · unfold dispatchLoop at hmem ⊢
      rw [hit] at hmem ⊢
      simp only [List.mem_cons] at hmem
      rcases hmem with hji | hmem
      · subst hji
        have hreg : getClass (setClass { s with group := g1, pending := p1 } j
            { pci with queued := false }) j =
            some { pci with queued := false } :=
          getClass_setClass_self _ (getClass_lt_length hgc)
        exact dispatchLoop_registered ctx repl n (k + 1) d _ j _ hreg
      · exact ih (k + 1) d _ j hmem
    · unfold dispatchLoop at hmem ⊢
      rw [hit] at hmem ⊢
      exact ih (k + 1) (add64 d (ctx.capFn e.ticket)) _ j hmem

theorem isQueued_pushClass_self {s : FairQueue} {j : Nat} {pcj : priority_class_data}
    (h : getClass s j = some pcj) : isQueued (pushClass s j) j = true := by
  unfold pushClass
  rw [h]
  unfold isQueued
  rw [getClass_setClass_self _ (getClass_lt_length h)]

theorem isQueued_pushClass_mono {s : FairQueue} {j a : Nat}
    (h : isQueued s j = true) : isQueued (pushClass s a) j = true := by
  unfold pushClass
  cases hx : getClass s a with
  | none => exact h
  | some pca =>
    by_cases hja : j = a
    · subst hja
      unfold isQueued
      rw [getClass_setClass_self _ (getClass_lt_length hx)]
    · unfold isQueued at h ⊢
      rw [getClass_setClass_ne _ hja]
      exact h

theorem pushClass_registered {s : FairQueue} {j a : Nat} {pcj : priority_class_data}
    (h : getClass s j = some pcj) : ∃ pc2, getClass (pushClass s a) j = some pc2 := by
  unfold pushClass
  cases hx : getClass s a with
  | none => exact ⟨pcj, h⟩
  | some pca =>
    by_cases hja : j = a
    · subst hja
      exact ⟨_, getClass_setClass_self _ (getClass_lt_length h)⟩
    · exact ⟨pcj, by rw [getClass_setClass_ne _ hja]; exact h⟩

theorem foldl_pushClass_mono {j : Nat} :
    ∀ (l : List Nat) (s : FairQueue), isQueued s j = true →
      isQueued (l.foldl (fun t i => pushClass t i) s) j = true := by
  intro l
  induction l with
  | nil => exact fun s h => h
  | cons a l ih => exact fun s h => ih (pushClass s a) (isQueued_pushClass_mono h)

theorem foldl_pushClass_queued {j : Nat} :
    ∀ (l : List Nat) (s : FairQueue), j ∈ l → (∃ pcj, getClass s j = some pcj) →
      isQueued (l.foldl (fun t i => pushClass t i) s) j = true := by
  intro l
  induction l with
  | nil => intro s h; simp at h
  | cons a l ih =>
    intro s hmem ⟨pcj, hreg⟩
    rcases List.mem_cons.mp hmem with hja | hmem2
    · subst hja
      exact foldl_pushClass_mono l (pushClass s j) (isQueued_pushClass_self hreg)
    · exact ih (pushClass s a) hmem2 (pushClass_registered hreg)

/-- C4.  With an existing pending-wait record: a still-deficient head target
keeps the result Pending and stops the loop; a satisfied target with entry
capacity at most the reserved capacity releases the excess back to the group,
clears the pending record and yields Grabbed; a strictly larger entry yields
CantPreempt, the class is popped to the preempt list without dispatching
(FIFO intact, pending intact), and every class on the loop's preempt list is
pushed back onto the heap after the loop ends. -/
theorem c4_pending_grab_preempt (ctx : FQContext) (extra : Nat) (s : FairQueue)
    (d i : Nat) (pc : priority_class_data) (e : fair_queue_entry)
    (rest : List fair_queue_entry) (p : Pending) (g1 : FairGroup)
    (hpend : s.pending = some p) (htop : heapTop s = some i)
    (hpc : getClass s i = some pc) (hfifo : pc.fifo = e :: rest)
    (hd : d < ctx.budget)
    (hg1 : s.group.maybe_replenish extra = g1)
    (hsh : g1.head < u64Mod) :
    (g1.capacity_deficiency p.head ≠ 0 →
      dispatchIter ctx extra s d = (.pend, { s with group := g1, pending := some p }) ∧
      (∀ repl fuel k, repl k = extra →
        dispatchLoop ctx repl (fuel + 1) k d s =
          ({ s with group := g1, pending := some p }, [], []))) ∧
    (g1.capacity_deficiency p.head = 0 → ctx.capFn e.ticket ≤ p.cap →
      (dispatchIter ctx extra s d).1 = IterOut.grab i e (ctx.capFn e.ticket) ∧
      (dispatchIter ctx extra s d).2.pending = none ∧
      (dispatchIter ctx extra s d).2.group.head =
        add64 g1.head (p.cap - ctx.capFn e.ticket) ∧
      (dispatchIter ctx extra s d).2.group.tail = g1.tail) ∧
    (g1.capacity_deficiency p.head = 0 → p.cap < ctx.capFn e.ticket →
      dispatchIter ctx extra s d = (.cant i,
        setClass { s with group := g1, pending := some p } i
          { pc with queued := false }) ∧
      fifoOf (setClass { s with group := g1, pending := some p } i
        { pc with queued := false }) i = e :: rest) ∧
    (∀ repl fuel (s0 : FairQueue) j, j ∈ (dispatchLoop ctx repl fuel 0 0 s0).2.2 →
      isQueued (dispatch_requests ctx repl fuel s0).1 j = true) := by
  refine ⟨?stillpend, ?grabbed, ?preempt, ?repush⟩
  case stillpend =>
    intro hdef
    have hgr : fq_grab_capacity ctx extra s e = (.pending, g1, some p) := by
      simp only [fq_grab_capacity, hpend, grab_pending_capacity, hg1, if_pos hdef]
    refine ⟨dispatchIter_pending_eq hd htop hpc hfifo hgr, ?stop⟩
    intro repl fuel k hrepl
    simp only [dispatchLoop, hrepl, dispatchIter_pending_eq hd htop hpc hfifo hgr]
  case grabbed =>
    intro hdef0 hle
    by_cases hlt2 : ctx.capFn e.ticket < p.cap
    · have hgr : fq_grab_capacity ctx extra s e =
          (.grabbed, g1.release_capacity (p.cap - ctx.capFn e.ticket), none) := by
        simp only [fq_grab_capacity, hpend, grab_pending_capacity, hg1, hdef0, ne_eq,
          not_true_eq_false, if_false, if_neg (not_lt.mpr hle), if_pos hlt2]
      rw [dispatchIter_grab_eq hd htop hpc hfifo hgr]
      exact ⟨rfl, grabSuccessor_pending, by rw [grabSuccessor_group]; rfl,
        by rw [grabSuccessor_group]; rfl⟩
    · have hgr : fq_grab_capacity ctx extra s e = (.grabbed, g1, none) := by
        simp only [fq_grab_capacity, hpend, grab_pending_capacity, hg1, hdef0, ne_eq,
          not_true_eq_false, if_false, if_neg (not_lt.mpr hle), if_neg hlt2]
      rw [dispatchIter_grab_eq hd htop hpc hfifo hgr]
      have hz : p.cap - ctx.capFn e.ticket = 0 := by omega
      refine ⟨rfl, grabSuccessor_pending, ?hd2, by rw [grabSuccessor_group]⟩
      rw [grabSuccessor_group, hz, add64_zero hsh]
  case preempt =>
    intro hdef0 hlt3
    have hgr : fq_grab_capacity ctx extra s e = (.cant_preempt, g1, some p) := by
      simp only [fq_grab_capacity, hpend, grab_pending_capacity, hg1, hdef0, ne_eq,
        not_true_eq_false, if_false, if_pos hlt3]
    refine ⟨dispatchIter_cant_eq hd htop hpc hfifo hgr, ?keepfifo⟩
    unfold fifoOf
    rw [getClass_setClass_self _ ?hb]
    case hb => exact getClass_lt_length hpc
    exact hfifo
  case repush =>
    intro repl fuel s0 j hmem
    unfold dispatch_requests
    obtain ⟨pc2, hreg⟩ := dispatchLoop_preempt_registered ctx repl fuel 0 0 s0 j hmem
    exact foldl_pushClass_queued _ _ hmem ⟨pc2, hreg⟩

/-- C4 witness: the satisfied 7-token reservation dispatches the 5-token
entry and releases the excess 2 tokens; the state whose reservation (3) is
smaller than the entry (5) preempts and the class is re-queued after the
loop. -/
theorem c4_witness :
    ((dispatchIter ctxA 0 sP 0).1 = IterOut.grab 0 entA 5 ∧
      (dispatchIter ctxA 0 sP 0).2.pending = none ∧
      (dispatchIter ctxA 0 sP 0).2.group.head = add64 gP.head (pP.cap - 5)) ∧
    isQueued (dispatch_requests ctxA (fun _ => 0) 2 sQ).1 0 = true := by
  have h := c4_pending_grab_preempt ctxA 0 sP 0 0 pcA entA [] pP gP
    (by decide) (by decide) (by decide) (by decide) (by decide) (by decide) (by decide)
  have h2 := h.2.1 (by decide) (by decide)
  exact ⟨⟨h2.1, h2.2.1, h2.2.2.1⟩, h.2.2.2 (fun _ => 0) 2 sQ 0 (by decide)⟩

end FairQueueModel
